import Mathlib

/-!
# Verification of the KiCad schematic ingest core (`schematic_ingest.py`)

Shallow embedding of the grammar parser (`SExprParser`), the schematic model
(`Point`, `Pin`, `Component`, `Wire`, `Junction`, `Label`, `Net`) and the net
synthesis engine (`_build_nets`) of `src/data/data-ingest/schematic_ingest.py`.

Conventions of the embedding:
* Python floats are modelled as exact rationals (`ℚ`); the source's arithmetic
  (`+`, `-`, `**2`) is carried over verbatim on `ℚ`.
* `Point.distance_to` computes `math.sqrt(dx**2 + dy**2)` and `_points_close`
  compares it with `<= tolerance`.  The executable embedding compares the
  radicand with `tolerance * tolerance` instead; the equivalence of the two
  (for the nonnegative tolerance the program uses) is proved in
  `points_close_iff_sqrt_dist_le` below, so every other theorem can use the
  executable form.
* Python `dict`s (insertion ordered, upsert replaces the value in place) are
  modelled as association lists with `dictSet`.
* Python exceptions are modelled by `Option`/`Except` results: `none`/`.error`
  means the call raised; there is no partial result in that case.
* Dynamically typed slots that the program stores without inspecting
  (`item[1]` of a `symbol` node, property values, ...) keep the generic
  S-expression type `SEx`.
-/

namespace SchematicIngest

/-- Generic value produced by `SExprParser`: a bare/quoted atom, a list, or
Python `None` (returned by `parse` at end of input). -/
inductive SEx where
  | null : SEx
  | atom (s : String) : SEx
  | list (xs : List SEx) : SEx

/-- 2D point with exact-rational coordinates (`@dataclass Point`). -/
structure Point where
  x : ℚ
  y : ℚ
  deriving DecidableEq

/-- The radicand of `Point.distance_to`: `(p.x - q.x)**2 + (p.y - q.y)**2`. -/
def distSq (p q : Point) : ℚ :=
  (p.x - q.x) ^ 2 + (p.y - q.y) ^ 2

/-- `KiCadSchematicParser._points_close`: `p1.distance_to(p2) <= tolerance`.
Executable form comparing squared distance with `tolerance * tolerance`;
`points_close_iff_sqrt_dist_le` proves this equal to the source's
`sqrt (distSq) <= tolerance` for nonnegative tolerance (the program only ever
passes `tolerance = 0.01`). -/
def _points_close (p1 p2 : Point) (tolerance : ℚ) : Bool :=
  decide (distSq p1 p2 ≤ tolerance * tolerance)

/-- `@dataclass Wire`: an ordered pair of absolute points. -/
structure Wire where
  start : Point
  «end» : Point
  deriving DecidableEq

/-- `@dataclass Junction`. -/
structure Junction where
  position : Point
  deriving DecidableEq

/-- `@dataclass Label` (also used for hierarchical labels via `type`). -/
structure Label where
  text : String
  position : Point
  rotation : ℚ := 0
  type : String := "label"
  deriving DecidableEq

/-- `@dataclass Pin` (instance pin of a placed component).  `name` and `type`
are stored by the program without inspection, so they keep type `SEx`. -/
structure Pin where
  number : String
  name : SEx
  type : SEx
  position : Point
  orientation : ℚ := 0
  length : ℚ := 0

/-- One entry of a component's property bag (`_parse_property` result). -/
structure PropData where
  name : String
  value : SEx
  position : Point
  rotation : ℚ
  effects : List (String × SEx)

/-- `@dataclass Component`. `pins` and `properties` are Python dicts keyed by
pin number / property name; modelled as insertion-ordered association lists. -/
structure Component where
  reference : String
  value : SEx
  footprint : SEx
  position : Point
  rotation : ℚ
  library_id : SEx
  pins : List (String × Pin)
  properties : List (String × PropData)

/-- `@dataclass Net`. -/
structure Net where
  name : String
  pins : List (String × String)
  wires : List Wire
  junctions : List Junction
  labels : List Label

/-- Python dict assignment `m[k] = v`: replace in place if the key exists,
else append (insertion order preserved). -/
def dictSet {β : Type} (m : List (String × β)) (k : String) (v : β) :
    List (String × β) :=
  match m with
  | [] => [(k, v)]
  | (k', v') :: rest => if k' = k then (k, v) :: rest else (k', v') :: dictSet rest k v

/-- Python dict lookup `m.get(k)`. -/
def dictGet {β : Type} (m : List (String × β)) (k : String) : Option β :=
  match m with
  | [] => none
  | (k', v') :: rest => if k' = k then some v' else dictGet rest k

/-- `str.startswith`, stated on the underlying character lists so that it
reduces in the kernel. -/
def pyStartsWith (s pre : String) : Bool :=
  pre.data.isPrefixOf s.data

/-! ## Net synthesis engine (`_build_nets`) -/

/-- The wire-adjacency test of the clustering loop in `_build_nets`: any of the
four endpoint combinations of the new wire `w` and an existing wire `v` are
within tolerance. -/
def connectsTo (tol : ℚ) (w v : Wire) : Bool :=
  _points_close w.start v.start tol || _points_close w.start v.«end» tol ||
    _points_close w.«end» v.start tol || _points_close w.«end» v.«end» tol

/-- Inner loop `for existing_wire in group: if ...: break` — the new wire
touches some wire of the group. -/
def hits (tol : ℚ) (w : Wire) (g : List Wire) : Bool :=
  g.any (fun v => connectsTo tol w v)

/-- `connected_groups`: the indices (ascending, starting at `i`) of the groups
touched by `w`, exactly as collected by `for i, group in enumerate(...)`. -/
def connIdxs (tol : ℚ) (w : Wire) : List (List Wire) → Nat → List Nat
  | [], _ => []
  | g :: gs, i =>
    if hits tol w g then i :: connIdxs tol w gs (i + 1) else connIdxs tol w gs (i + 1)

/-- One iteration of the clustering loop of `_build_nets` for wire `w`:
no touched group → new singleton group appended; one touched group → wire
appended to it in place; several → they are deleted in descending index order
and a merged group `[w] ++ (their contents, descending)` is appended. -/
def step (tol : ℚ) (gs : List (List Wire)) (w : Wire) : List (List Wire) :=
  match connIdxs tol w gs 0 with
  | [] => gs ++ [[w]]
  | [i] => gs.set i (gs.getD i [] ++ [w])
  | is => gs.filter (fun g => !hits tol w g) ++
      [w :: (is.reverse.map (fun i => gs.getD i [])).flatten]

/-- The wire clustering phase of `_build_nets`: fold the loop over the input
wire list, starting from no groups. -/
def buildGroups (tol : ℚ) (ws : List Wire) : List (List Wire) :=
  ws.foldl (step tol) []

/-- `tolerance = 0.01` (local constant of `_build_nets`). -/
def tolerance : ℚ := 1 / 100

/-- Does `p` coincide with an endpoint of some wire of the group? (shared shape
of the label/junction/pin attachment loops). -/
def touchesGroup (tol : ℚ) (p : Point) (group : List Wire) : Bool :=
  group.any (fun w => _points_close p w.start tol || _points_close p w.«end» tol)

/-- One iteration of the label-attachment loop of `_build_nets`: a label
coincident with an endpoint of some group wire is attached, and the source's
renaming statement
`if label.text and not net_name.startswith("Net_"): net_name = label.text`
is applied verbatim. -/
def attachLabelsStep (tol : ℚ) (group : List Wire) (acc : String × List Label)
    (lab : Label) : String × List Label :=
  if touchesGroup tol lab.position group then
    (if lab.text != "" && !(pyStartsWith acc.1 "Net_") then lab.text else acc.1,
     acc.2 ++ [lab])
  else acc

/-- The label-attachment loop of `_build_nets` for one wire group: walks the
labels in order starting from the default name.  Returns the final net name
and the attached labels. -/
def attachLabels (tol : ℚ) (group : List Wire) (labels : List Label)
    (name0 : String) : String × List Label :=
  labels.foldl (attachLabelsStep tol group) (name0, [])

/-- The junction-attachment loop of `_build_nets` for one wire group. -/
def attachJunctions (tol : ℚ) (group : List Wire) (junctions : List Junction) :
    List Junction :=
  junctions.filter (fun j => touchesGroup tol j.position group)

/-- Absolute pin position: `component.position + pin.position` (the component's
rotation is not applied — the source does not apply it either). -/
def pinAbs (c : Component) (p : Pin) : Point :=
  ⟨c.position.x + p.position.x, c.position.y + p.position.y⟩

/-- The pin-attachment loop of `_build_nets` for one wire group: for each
component (dict order) and each of its pins (dict order), attach
`(component_ref, pin_number)` if the absolute pin position coincides with an
endpoint of some group wire. -/
def attachPins (tol : ℚ) (group : List Wire)
    (components : List (String × Component)) : List (String × String) :=
  (components.map (fun rc =>
    (rc.2.pins.filter (fun np => touchesGroup tol (pinAbs rc.2 np.2) group)).map
      (fun np => (rc.1, np.1)))).flatten

/-- The body of the per-group loop of `_build_nets`: the `Net` record built
for wire group `wire_group` at enumeration index `i` (name `"Net_<i>"`,
possibly renamed by the label loop, plus attached pins/junctions/labels). -/
def netFor (junctions : List Junction) (labels : List Label)
    (components : List (String × Component)) (wire_group : List Wire)
    (i : Nat) : Net :=
  let nl := attachLabels tolerance wire_group labels ("Net_" ++ Nat.repr i)
  ⟨nl.1, attachPins tolerance wire_group components, wire_group,
    attachJunctions tolerance wire_group junctions, nl.2⟩

/-- One iteration of the per-group loop of `_build_nets`: build the group's
net, insert it into the nets dict when `net_pins or wire_group` is truthy, and
advance the enumeration index. -/
def buildNetsStep (junctions : List Junction) (labels : List Label)
    (components : List (String × Component))
    (acc : List (String × Net) × Nat) (wire_group : List Wire) :
    List (String × Net) × Nat :=
  let net := netFor junctions labels components wire_group acc.2
  (if !net.pins.isEmpty || !wire_group.isEmpty then
      dictSet acc.1 net.name net
    else acc.1,
   acc.2 + 1)

/-- `KiCadSchematicParser._build_nets`: cluster the wires, then run the
per-group loop over the groups in enumeration order, starting from an empty
nets dict and index 0. -/
def _build_nets (wires : List Wire) (junctions : List Junction)
    (labels : List Label) (components : List (String × Component)) :
    List (String × Net) :=
  ((buildGroups tolerance wires).foldl
    (buildNetsStep junctions labels components) ([], 0)).1

/-! ## Correctness of the wire clustering (claims C3, C4) -/

/-- Wire adjacency as a proposition. -/
def Adj (tol : ℚ) (a b : Wire) : Prop := connectsTo tol a b = true

/-- Reachability between wires through adjacency steps staying inside the
group `g` (transitive connectivity witnessed within one cluster). -/
def ReachW (tol : ℚ) (g : List Wire) (a b : Wire) : Prop :=
  Relation.ReflTransGen (fun x y => x ∈ g ∧ y ∈ g ∧ Adj tol x y) a b

/-- Two groups are separated: no wire of one is adjacent to a wire of the
other. -/
def Sep (tol : ℚ) (g h : List Wire) : Prop :=
  ∀ a ∈ g, ∀ b ∈ h, connectsTo tol a b = false

theorem distSq_comm (p q : Point) : distSq p q = distSq q p := by
  unfold distSq; ring

theorem _points_close_comm (p q : Point) (t : ℚ) :
    _points_close p q t = _points_close q p t := by
  simp [_points_close, distSq_comm]

theorem _points_close_refl (p : Point) (t : ℚ) : _points_close p p t = true := by
  simp only [_points_close, distSq, sub_self, decide_eq_true_eq]
  nlinarith [sq_nonneg t]

theorem connectsTo_comm (tol : ℚ) (a b : Wire) :
    connectsTo tol a b = connectsTo tol b a := by
  rw [Bool.eq_iff_iff]
  simp only [connectsTo, Bool.or_eq_true]
  constructor <;>
    (rintro (((h | h) | h) | h) <;> rw [_points_close_comm] at h <;> tauto)

theorem connectsTo_refl (tol : ℚ) (w : Wire) : connectsTo tol w w = true := by
  simp [connectsTo, _points_close_refl]

theorem adj_refl (tol : ℚ) (w : Wire) : Adj tol w w := connectsTo_refl tol w

theorem adj_symm {tol : ℚ} {a b : Wire} (h : Adj tol a b) : Adj tol b a := by
  unfold Adj at *; rwa [connectsTo_comm]

theorem sep_symm {tol : ℚ} {g h : List Wire} (hs : Sep tol g h) : Sep tol h g :=
  fun a ha b hb => by rw [connectsTo_comm]; exact hs b hb a ha

theorem hits_eq_false_iff {tol : ℚ} {w : Wire} {g : List Wire} :
    hits tol w g = false ↔ ∀ v ∈ g, connectsTo tol w v = false := by
  simp [hits, List.any_eq_false]

theorem hits_eq_true_iff {tol : ℚ} {w : Wire} {g : List Wire} :
    hits tol w g = true ↔ ∃ v ∈ g, connectsTo tol w v = true := by
  simp [hits, List.any_eq_true]

theorem reachW_mono {tol : ℚ} {g g' : List Wire} (sub : ∀ x ∈ g, x ∈ g')
    {a b : Wire} (h : ReachW tol g a b) : ReachW tol g' a b :=
  Relation.ReflTransGen.mono (fun x y hxy => ⟨sub x hxy.1, sub y hxy.2.1, hxy.2.2⟩) h

theorem reachW_symm {tol : ℚ} {g : List Wire} {a b : Wire}
    (h : ReachW tol g a b) : ReachW tol g b a := by
  refine Relation.ReflTransGen.symmetric ?_ h
  intro x y hxy
  exact ⟨hxy.2.1, hxy.1, adj_symm hxy.2.2⟩

theorem reachW_single {tol : ℚ} {g : List Wire} {a b : Wire}
    (ha : a ∈ g) (hb : b ∈ g) (hab : Adj tol a b) : ReachW tol g a b :=
  Relation.ReflTransGen.single ⟨ha, hb, hab⟩

/-- Invariant of the clustering loop after processing the wires `ws`:
the groups cover exactly the processed wires, are nonempty, internally
connected, and pairwise separated. -/
structure GroupInv (tol : ℚ) (ws : List Wire) (gs : List (List Wire)) : Prop where
  cover : ∀ x, (∃ g ∈ gs, x ∈ g) ↔ x ∈ ws
  nonempty : ∀ g ∈ gs, g ≠ []
  conn : ∀ g ∈ gs, ∀ a ∈ g, ∀ b ∈ g, ReachW tol g a b
  sep : List.Pairwise (Sep tol) gs

/-- From pairwise separation, any two member-distinct groups are separated. -/
theorem GroupInv.sep_values {tol : ℚ} {ws : List Wire} {gs : List (List Wire)}
    (H : GroupInv tol ws gs) {g h : List Wire} (hg : g ∈ gs) (hh : h ∈ gs)
    (hne : g ≠ h) : Sep tol g h := by
  obtain ⟨i, hi, rfl⟩ := List.mem_iff_getElem.mp hg
  obtain ⟨j, hj, rfl⟩ := List.mem_iff_getElem.mp hh
  have hij : i ≠ j := fun e => hne (by simp [e])
  rcases Nat.lt_or_ge i j with hlt | hge
  · exact (List.pairwise_iff_getElem.mp H.sep) i j hi hj hlt
  · exact sep_symm ((List.pairwise_iff_getElem.mp H.sep) j i hj hi
      (lt_of_le_of_ne hge (Ne.symm hij)))

theorem connIdxs_succ (tol : ℚ) (w : Wire) (gs : List (List Wire)) (n : Nat) :
    connIdxs tol w gs (n + 1) = (connIdxs tol w gs n).map (· + 1) := by
  induction gs generalizing n with
  | nil => simp [connIdxs]
  | cons g rest ih =>
    simp only [connIdxs]
    by_cases h : hits tol w g = true
    · simp [h, ih]
    · simp [h, ih]

theorem mem_connIdxs {tol : ℚ} {w : Wire} :
    ∀ (gs : List (List Wire)) (i : Nat),
      i ∈ connIdxs tol w gs 0 ↔ ∃ (h : i < gs.length), hits tol w gs[i] = true := by
  intro gs
  induction gs with
  | nil => intro i; simp [connIdxs]
  | cons g rest ih =>
    intro i
    have e : connIdxs tol w (g :: rest) 0
        = if hits tol w g then 0 :: (connIdxs tol w rest 0).map (· + 1)
          else (connIdxs tol w rest 0).map (· + 1) := by
      rw [show (connIdxs tol w (g :: rest) 0)
          = if hits tol w g then 0 :: connIdxs tol w rest (0 + 1)
            else connIdxs tol w rest (0 + 1) from rfl, connIdxs_succ]
    rw [e]
    by_cases h : hits tol w g = true
    · rw [if_pos h]
      cases i with
      | zero => simp [h]
      | succ j =>
        constructor
        · intro hmem
          rcases List.mem_cons.mp hmem with h0 | hmap
          · exact absurd h0 (by omega)
          · obtain ⟨k, hk, hkj⟩ := List.mem_map.mp hmap
            have hkj' : k = j := by omega
            rw [hkj'] at hk
            obtain ⟨hlt, hh⟩ := (ih j).mp hk
            exact ⟨Nat.succ_lt_succ hlt, by simpa using hh⟩
        · rintro ⟨hlt, hh⟩
          have hlt' : j < rest.length := Nat.lt_of_succ_lt_succ hlt
          have hh' : hits tol w rest[j] = true := by simpa using hh
          exact List.mem_cons_of_mem _ (List.mem_map.mpr ⟨j, (ih j).mpr ⟨hlt', hh'⟩, rfl⟩)
    · rw [if_neg h]
      cases i with
      | zero =>
        constructor
        · intro hmap
          obtain ⟨k, _, hk0⟩ := List.mem_map.mp hmap
          omega
        · rintro ⟨hlt, hh⟩
          rw [List.getElem_cons_zero] at hh
          exact absurd hh (by simpa using h)
      | succ j =>
        constructor
        · intro hmap
          obtain ⟨k, hk, hkj⟩ := List.mem_map.mp hmap
          have hkj' : k = j := by omega
          rw [hkj'] at hk
          obtain ⟨hlt, hh⟩ := (ih j).mp hk
          exact ⟨Nat.succ_lt_succ hlt, by simpa using hh⟩
        · rintro ⟨hlt, hh⟩
          exact List.mem_map.mpr
            ⟨j, (ih j).mpr ⟨Nat.lt_of_succ_lt_succ hlt, by simpa using hh⟩, rfl⟩

/-- Membership in some group, in indexed form. -/
theorem exists_mem_iff_getElem {gs : List (List Wire)} {x : Wire} :
    (∃ g ∈ gs, x ∈ g) ↔ ∃ (j : Nat) (h : j < gs.length), x ∈ gs[j] := by
  constructor
  · rintro ⟨g, hg, hx⟩
    obtain ⟨j, hj, rfl⟩ := List.mem_iff_getElem.mp hg
    exact ⟨j, hj, hx⟩
  · rintro ⟨j, hj, hx⟩
    exact ⟨gs[j], List.getElem_mem hj, hx⟩

theorem getD_groups {gs : List (List Wire)} {j : Nat} (h : j < gs.length) :
    gs.getD j [] = gs[j] := by
  rw [List.getD_eq_getElem?_getD, List.getElem?_eq_getElem h]
  rfl

/-- Clustering step, case "no connected group": a fresh singleton group is
appended and all invariants persist. -/
theorem step_inv_none {tol : ℚ} {ws : List Wire} {gs : List (List Wire)} {w : Wire}
    (hcs : connIdxs tol w gs 0 = []) (H : GroupInv tol ws gs) :
    GroupInv tol (ws ++ [w]) (gs ++ [[w]]) := by
  have hnone : ∀ g ∈ gs, hits tol w g = false := by
    intro g hg
    obtain ⟨k, hk, rfl⟩ := List.mem_iff_getElem.mp hg
    by_contra hne
    have hmem : k ∈ connIdxs tol w gs 0 :=
      (mem_connIdxs gs k).mpr ⟨hk, by simpa using hne⟩
    simp [hcs] at hmem
  refine ⟨?_, ?_, ?_, ?_⟩
  · intro x
    simp only [List.mem_append, List.mem_singleton]
    constructor
    · rintro ⟨g, hg | rfl, hx⟩
      · exact Or.inl ((H.cover x).mp ⟨g, hg, hx⟩)
      · rw [List.mem_singleton] at hx; exact Or.inr hx
    · rintro (hx | rfl)
      · obtain ⟨g, hg, hxg⟩ := (H.cover x).mpr hx
        exact ⟨g, Or.inl hg, hxg⟩
      · exact ⟨[x], Or.inr rfl, List.mem_singleton_self x⟩
  · intro g hg
    rcases List.mem_append.mp hg with hg | hg
    · exact H.nonempty g hg
    · rw [List.mem_singleton] at hg; subst hg; simp
  · intro g hg a ha b hb
    rcases List.mem_append.mp hg with hg | hg
    · exact H.conn g hg a ha b hb
    · rw [List.mem_singleton] at hg; subst hg
      rw [List.mem_singleton] at ha hb; subst ha; subst hb
      exact Relation.ReflTransGen.refl
  · rw [List.pairwise_append]
    refine ⟨H.sep, List.pairwise_singleton _ _, ?_⟩
    intro g hg g' hg'
    rw [List.mem_singleton] at hg'; subst hg'
    intro a ha b hb
    rw [List.mem_singleton] at hb; subst hb
    rw [connectsTo_comm]
    exact hits_eq_false_iff.mp (hnone g hg) a ha

/-- Clustering step, case "exactly one connected group": the wire is appended
to that group in place and all invariants persist. -/
theorem step_inv_one {tol : ℚ} {ws : List Wire} {gs : List (List Wire)} {w : Wire}
    {i : Nat} (hcs : connIdxs tol w gs 0 = [i]) (H : GroupInv tol ws gs) :
    GroupInv tol (ws ++ [w]) (gs.set i (gs.getD i [] ++ [w])) := by
  obtain ⟨hilen, hihits⟩ :=
    (mem_connIdxs gs i).mp (by rw [hcs]; exact List.mem_singleton_self i)
  have huniq : ∀ j (hj : j < gs.length), hits tol w (gs[j]) = true → j = i := by
    intro j hj hjh
    have : j ∈ connIdxs tol w gs 0 := (mem_connIdxs gs j).mpr ⟨hj, hjh⟩
    rw [hcs, List.mem_singleton] at this
    exact this
  rw [getD_groups hilen]
  set G : List Wire := gs[i] ++ [w] with hG
  have hGmem : ∀ x, x ∈ G ↔ x ∈ gs[i] ∨ x = w := by
    intro x; rw [hG, List.mem_append, List.mem_singleton]
  have reach_w : ∀ a ∈ G, ReachW tol G a w := by
    intro a ha
    rcases (hGmem a).mp ha with haold | rfl
    · obtain ⟨v, hv, hwv⟩ := hits_eq_true_iff.mp hihits
      have hreach : ReachW tol gs[i] a v :=
        H.conn gs[i] (List.getElem_mem hilen) a haold v hv
      have hreach' : ReachW tol G a v :=
        reachW_mono (fun x hx => (hGmem x).mpr (Or.inl hx)) hreach
      exact hreach'.tail
        ⟨(hGmem v).mpr (Or.inl hv), (hGmem w).mpr (Or.inr rfl), adj_symm hwv⟩
    · exact Relation.ReflTransGen.refl
  refine ⟨?_, ?_, ?_, ?_⟩
  · intro x
    rw [exists_mem_iff_getElem, List.mem_append, List.mem_singleton, ← H.cover x,
      exists_mem_iff_getElem]
    constructor
    · rintro ⟨j, hj, hx⟩
      rw [List.length_set] at hj
      rw [List.getElem_set] at hx
      by_cases hji : i = j
      · rw [if_pos hji] at hx
        rcases (hGmem x).mp hx with hxo | hxe
        · exact Or.inl ⟨i, hilen, hxo⟩
        · exact Or.inr hxe
      · rw [if_neg hji] at hx
        exact Or.inl ⟨j, hj, hx⟩
    · rintro (⟨j, hj, hx⟩ | rfl)
      · by_cases hji : i = j
        · subst hji
          exact ⟨i, by rwa [List.length_set],
            by rw [List.getElem_set, if_pos rfl]; exact (hGmem x).mpr (Or.inl hx)⟩
        · exact ⟨j, by rwa [List.length_set],
            by rw [List.getElem_set, if_neg hji]; exact hx⟩
      · exact ⟨i, by rwa [List.length_set],
          by rw [List.getElem_set, if_pos rfl]; exact (hGmem x).mpr (Or.inr rfl)⟩
  · intro g hg
    rcases List.mem_or_eq_of_mem_set hg with hg | rfl
    · exact H.nonempty g hg
    · rw [hG]; simp
  · intro g hg a ha b hb
    rcases List.mem_or_eq_of_mem_set hg with hg | rfl
    · exact H.conn g hg a ha b hb
    · exact (reach_w a ha).trans (reachW_symm (reach_w b hb))
  · have hsepidx : ∀ j k (hj : j < gs.length) (hk : k < gs.length), j ≠ k →
        Sep tol gs[j] gs[k] := by
      intro j k hj hk hjk
      rcases Nat.lt_or_ge j k with h | h
      · exact List.pairwise_iff_getElem.mp H.sep j k hj hk h
      · exact sep_symm (List.pairwise_iff_getElem.mp H.sep k j hk hj
          (lt_of_le_of_ne h (Ne.symm hjk)))
    rw [List.pairwise_iff_getElem]
    intro j k hj' hk' hjk
    have hj : j < gs.length := by simpa using hj'
    have hk : k < gs.length := by simpa using hk'
    rw [List.getElem_set, List.getElem_set]
    by_cases hij : i = j
    · rw [if_pos hij, if_neg (by omega : ¬ i = k)]
      intro a ha b hb
      rcases (hGmem a).mp ha with hao | hae
      · exact hsepidx i k hilen hk (by omega) a hao b hb
      · rw [hae]
        have hkfalse : hits tol w gs[k] = false := by
          by_contra hne
          have := huniq k hk (by simpa using hne)
          omega
        exact hits_eq_false_iff.mp hkfalse b hb
    · rw [if_neg hij]
      by_cases hik : i = k
      · rw [if_pos hik]
        intro a ha b hb
        rcases (hGmem b).mp hb with hbo | hbe
        · exact hsepidx j i hj hilen (by omega) a ha b hbo
        · rw [hbe]
          have hjfalse : hits tol w gs[j] = false := by
            by_contra hne
            have := huniq j hj (by simpa using hne)
            omega
          rw [connectsTo_comm]
          exact hits_eq_false_iff.mp hjfalse a ha
      · rw [if_neg hik]
        exact hsepidx j k hj hk (by omega)

/-- Clustering step, case "several connected groups": they are merged into a
single group together with the new wire, and all invariants persist. -/
theorem step_inv_many {tol : ℚ} {ws : List Wire} {gs : List (List Wire)} {w : Wire}
    {c0 c1 : Nat} {cs' : List Nat}
    (hcs : connIdxs tol w gs 0 = c0 :: c1 :: cs') (H : GroupInv tol ws gs) :
    GroupInv tol (ws ++ [w])
      (gs.filter (fun g => !hits tol w g) ++
        [w :: (((c0 :: c1 :: cs').reverse).map (fun i => gs.getD i [])).flatten]) := by
  set cs : List Nat := c0 :: c1 :: cs' with hcsdef
  have hmemcs : ∀ k, k ∈ cs ↔ ∃ (h : k < gs.length), hits tol w gs[k] = true := by
    intro k; rw [← hcs]; exact mem_connIdxs gs k
  set merged : List Wire := w :: ((cs.reverse).map (fun i => gs.getD i [])).flatten
    with hmerged
  have mem_merged : ∀ x, x ∈ merged ↔
      x = w ∨ ∃ g ∈ gs, hits tol w g = true ∧ x ∈ g := by
    intro x
    rw [hmerged, List.mem_cons]
    constructor
    · rintro (rfl | hx)
      · exact Or.inl rfl
      · obtain ⟨l, hl, hxl⟩ := List.mem_flatten.mp hx
        obtain ⟨k, hk, rfl⟩ := List.mem_map.mp hl
        rw [List.mem_reverse] at hk
        obtain ⟨hklen, hkhits⟩ := (hmemcs k).mp hk
        rw [getD_groups hklen] at hxl
        exact Or.inr ⟨gs[k], List.getElem_mem hklen, hkhits, hxl⟩
    · rintro (rfl | ⟨g, hg, hghits, hxg⟩)
      · exact Or.inl rfl
      · refine Or.inr (List.mem_flatten.mpr ?_)
        obtain ⟨k, hklen, rfl⟩ := List.mem_iff_getElem.mp hg
        refine ⟨gs.getD k [], List.mem_map.mpr
          ⟨k, List.mem_reverse.mpr ((hmemcs k).mpr ⟨hklen, hghits⟩), rfl⟩, ?_⟩
        rwa [getD_groups hklen]
  have w_mem_merged : w ∈ merged := by rw [hmerged]; exact List.mem_cons_self _ _
  have reach_w : ∀ a ∈ merged, ReachW tol merged a w := by
    intro a ha
    rcases (mem_merged a).mp ha with rfl | ⟨g, hg, hghits, hag⟩
    · exact Relation.ReflTransGen.refl
    · obtain ⟨v, hv, hwv⟩ := hits_eq_true_iff.mp hghits
      have hsub : ∀ x ∈ g, x ∈ merged := fun x hx =>
        (mem_merged x).mpr (Or.inr ⟨g, hg, hghits, hx⟩)
      have hreach : ReachW tol merged a v :=
        reachW_mono hsub (H.conn g hg a hag v hv)
      exact hreach.tail ⟨hsub v hv, w_mem_merged, adj_symm hwv⟩
  refine ⟨?_, ?_, ?_, ?_⟩
  · intro x
    simp only [List.mem_append, List.mem_singleton]
    constructor
    · rintro ⟨g, hg | rfl, hx⟩
      · exact Or.inl ((H.cover x).mp ⟨g, (List.mem_filter.mp hg).1, hx⟩)
      · rcases (mem_merged x).mp hx with rfl | ⟨g, hg, _, hxg⟩
        · exact Or.inr rfl
        · exact Or.inl ((H.cover x).mp ⟨g, hg, hxg⟩)
    · rintro (hx | rfl)
      · obtain ⟨g, hg, hxg⟩ := (H.cover x).mpr hx
        by_cases hhit : hits tol w g = true
        · exact ⟨merged, Or.inr rfl, (mem_merged x).mpr (Or.inr ⟨g, hg, hhit, hxg⟩)⟩
        · exact ⟨g, Or.inl (List.mem_filter.mpr ⟨hg, by simp [hhit]⟩), hxg⟩
      · exact ⟨merged, Or.inr rfl, w_mem_merged⟩
  · intro g hg
    rcases List.mem_append.mp hg with hg | hg
    · exact H.nonempty g (List.mem_of_mem_filter hg)
    · rw [List.mem_singleton] at hg; subst hg
      rw [hmerged]; simp
  · intro g hg a ha b hb
    rcases List.mem_append.mp hg with hg | hg
    · exact H.conn g (List.mem_of_mem_filter hg) a ha b hb
    · rw [List.mem_singleton] at hg; subst hg
      exact (reach_w a ha).trans (reachW_symm (reach_w b hb))
  · rw [List.pairwise_append]
    refine ⟨List.Pairwise.sublist (List.filter_sublist gs) H.sep,
      List.pairwise_singleton _ _, ?_⟩
    intro g hg m hm
    rw [List.mem_singleton] at hm; subst hm
    have hggs : g ∈ gs := List.mem_of_mem_filter hg
    have hgfalse : hits tol w g = false := by
      have := (List.mem_filter.mp hg).2
      simpa using this
    intro a ha b hb
    rcases (mem_merged b).mp hb with hbe | ⟨h, hh, hhhits, hbh⟩
    · rw [hbe, connectsTo_comm]
      exact hits_eq_false_iff.mp hgfalse a ha
    · have hne : g ≠ h := by
        intro e; rw [e] at hgfalse; rw [hgfalse] at hhhits; exact Bool.false_ne_true hhhits
      exact H.sep_values hggs hh hne a ha b hbh

/-- One step of the clustering loop preserves the invariant. -/
theorem step_inv {tol : ℚ} {ws : List Wire} {gs : List (List Wire)} (w : Wire)
    (H : GroupInv tol ws gs) : GroupInv tol (ws ++ [w]) (step tol gs w) := by
  rcases hcs : connIdxs tol w gs 0 with _ | ⟨c0, _ | ⟨c1, cs'⟩⟩
  · have e : step tol gs w = gs ++ [[w]] := by unfold step; rw [hcs]
    rw [e]; exact step_inv_none hcs H
  · have e : step tol gs w = gs.set c0 (gs.getD c0 [] ++ [w]) := by
      unfold step; rw [hcs]
    rw [e]; exact step_inv_one hcs H
  · have e : step tol gs w = gs.filter (fun g => !hits tol w g) ++
        [w :: (((c0 :: c1 :: cs').reverse).map (fun i => gs.getD i [])).flatten] := by
      unfold step; rw [hcs]
    rw [e]; exact step_inv_many hcs H

/-- The clustering phase of `_build_nets` satisfies the invariant. -/
theorem buildGroups_inv (tol : ℚ) (ws : List Wire) :
    GroupInv tol ws (buildGroups tol ws) := by
  suffices h : ∀ (l : List Wire) (ws0 : List Wire) (gs : List (List Wire)),
      GroupInv tol ws0 gs → GroupInv tol (ws0 ++ l) (l.foldl (step tol) gs) by
    have := h ws [] [] ⟨by simp, by simp, by simp, List.Pairwise.nil⟩
    simpa [buildGroups] using this
  intro l
  induction l with
  | nil => intro ws0 gs H; simpa using H
  | cons w rest ih =>
    intro ws0 gs H
    have := ih (ws0 ++ [w]) (step tol gs w) (step_inv w H)
    simpa [List.append_assoc] using this

/-- If two group families both satisfy the invariant over the same wire set,
then reachability inside a group of the first family never leaves a group of
the second family. -/
theorem reach_stays {tol : ℚ} {ws1 ws2 : List Wire} {gs hs : List (List Wire)}
    (H1 : GroupInv tol ws1 gs) (H2 : GroupInv tol ws2 hs)
    (hm : ∀ x, x ∈ ws1 ↔ x ∈ ws2) {g h : List Wire} (hg : g ∈ gs) (hh : h ∈ hs)
    {y z : Wire} (hreach : ReachW tol g y z) (hy : y ∈ h) : z ∈ h := by
  induction hreach with
  | refl => exact hy
  | @tail b c hr hstep ih =>
    obtain ⟨hbg, hcg, hadj⟩ := hstep
    have hcws : c ∈ ws2 := (hm c).mp ((H1.cover c).mp ⟨g, hg, hcg⟩)
    obtain ⟨h', hh', hch'⟩ := (H2.cover c).mpr hcws
    by_cases hch : c ∈ h
    · exact hch
    · exfalso
      have hneq : h ≠ h' := fun e => hch (e ▸ hch')
      have hfalse := H2.sep_values hh hh' hneq b ih c hch'
      simp only [Adj] at hadj
      rw [hadj] at hfalse
      exact Bool.noConfusion hfalse

/-- Any two invariant-satisfying group families over the same set of wires
induce the same partition: each group of one family coincides (as a set of
wires) with some group of the other. -/
theorem groups_unique {tol : ℚ} {ws ws' : List Wire} {gs hs : List (List Wire)}
    (Hg : GroupInv tol ws gs) (Hh : GroupInv tol ws' hs)
    (hmem : ∀ x, x ∈ ws ↔ x ∈ ws') :
    ∀ g ∈ gs, ∃ h ∈ hs, ∀ x, x ∈ g ↔ x ∈ h := by
  intro g hg
  obtain ⟨a, ha⟩ := List.exists_mem_of_ne_nil g (Hg.nonempty g hg)
  obtain ⟨h, hh, hah⟩ :=
    (Hh.cover a).mpr ((hmem a).mp ((Hg.cover a).mp ⟨g, hg, ha⟩))
  refine ⟨h, hh, fun x => ⟨?_, ?_⟩⟩
  · intro hx
    exact reach_stays Hg Hh hmem hg hh (Hg.conn g hg a ha x hx) hah
  · intro hx
    exact reach_stays Hh Hg (fun y => (hmem y).symm) hh hg
      (Hh.conn h hh a hah x hx) ha

/-- **C4** (confirmed).  The wire clustering of `_build_nets` is
order-independent: presenting the wire list in any permuted order yields the
same partition of wires into clusters — every cluster of the one run has a
cluster of the other run with identical wire membership (cluster enumeration
order may differ). -/
theorem buildGroups_order_independent (tol : ℚ) (l1 l2 : List Wire)
    (hperm : l1.Perm l2) :
    (∀ g ∈ buildGroups tol l1, ∃ g' ∈ buildGroups tol l2, ∀ x, x ∈ g ↔ x ∈ g') ∧
    (∀ g' ∈ buildGroups tol l2, ∃ g ∈ buildGroups tol l1, ∀ x, x ∈ g' ↔ x ∈ g) := by
  have h12 : ∀ x, x ∈ l1 ↔ x ∈ l2 := fun x => hperm.mem_iff
  exact ⟨groups_unique (buildGroups_inv tol l1) (buildGroups_inv tol l2) h12,
    groups_unique (buildGroups_inv tol l2) (buildGroups_inv tol l1)
      (fun x => (h12 x).symm)⟩

/-- Witness for C4 at a concrete pair of permuted wire lists. -/
theorem buildGroups_order_independent_witness :
    (∀ g ∈ buildGroups tolerance
        [(⟨⟨0,0⟩, ⟨10,0⟩⟩ : Wire), ⟨⟨10,0⟩, ⟨10,10⟩⟩],
      ∃ g' ∈ buildGroups tolerance
        [(⟨⟨10,0⟩, ⟨10,10⟩⟩ : Wire), ⟨⟨0,0⟩, ⟨10,0⟩⟩],
        ∀ x, x ∈ g ↔ x ∈ g') ∧
    (∀ g' ∈ buildGroups tolerance
        [(⟨⟨10,0⟩, ⟨10,10⟩⟩ : Wire), ⟨⟨0,0⟩, ⟨10,0⟩⟩],
      ∃ g ∈ buildGroups tolerance
        [(⟨⟨0,0⟩, ⟨10,0⟩⟩ : Wire), ⟨⟨10,0⟩, ⟨10,10⟩⟩],
        ∀ x, x ∈ g' ↔ x ∈ g) :=
  buildGroups_order_independent tolerance _ _
    (List.Perm.swap (⟨⟨10,0⟩, ⟨10,10⟩⟩ : Wire) (⟨⟨0,0⟩, ⟨10,0⟩⟩ : Wire) [])

/-! ## Net membership provenance (claim C3) -/

theorem dictSet_values {β : Type} (m : List (String × β)) (k : String) (v : β) :
    ∀ p ∈ dictSet m k v, p ∈ m ∨ p = (k, v) := by
  induction m with
  | nil =>
    intro p hp
    simp only [dictSet, List.mem_singleton] at hp
    exact Or.inr hp
  | cons e rest ih =>
    intro p hp
    obtain ⟨k', v'⟩ := e
    simp only [dictSet] at hp
    by_cases hk : k' = k
    · rw [if_pos hk] at hp
      rcases List.mem_cons.mp hp with rfl | hp
      · exact Or.inr rfl
      · exact Or.inl (List.mem_cons_of_mem _ hp)
    · rw [if_neg hk] at hp
      rcases List.mem_cons.mp hp with rfl | hp
      · exact Or.inl (List.mem_cons_self _ _)
      · rcases ih p hp with h | h
        · exact Or.inl (List.mem_cons_of_mem _ h)
        · exact Or.inr h

theorem buildNetsStep_fst (J : List Junction) (L : List Label)
    (C : List (String × Component)) (acc : List (String × Net) × Nat)
    (g : List Wire) :
    ∀ p ∈ (buildNetsStep J L C acc g).1, p ∈ acc.1 ∨ p.2 = netFor J L C g acc.2 := by
  intro p hp
  simp only [buildNetsStep] at hp
  split at hp
  · rcases dictSet_values acc.1 _ _ p hp with h | h
    · exact Or.inl h
    · exact Or.inr (by rw [h])
  · exact Or.inl hp

theorem fold_netFor_values (J : List Junction) (L : List Label)
    (C : List (String × Component)) :
    ∀ (gs : List (List Wire)) (acc : List (String × Net) × Nat),
      ∀ p ∈ (gs.foldl (buildNetsStep J L C) acc).1,
        p ∈ acc.1 ∨ ∃ g ∈ gs, ∃ i, p.2 = netFor J L C g i := by
  intro gs
  induction gs with
  | nil => intro acc p hp; exact Or.inl hp
  | cons g rest ih =>
    intro acc p hp
    rcases ih (buildNetsStep J L C acc g) p hp with hin | ⟨g', hg', i, hi⟩
    · rcases buildNetsStep_fst J L C acc g p hin with h | h
      · exact Or.inl h
      · exact Or.inr ⟨g, List.mem_cons_self _ _, acc.2, h⟩
    · exact Or.inr ⟨g', List.mem_cons_of_mem _ hg', i, hi⟩

/-- Every net in the output of `_build_nets` is the `netFor` record of some
wire cluster. -/
theorem _build_nets_values (wires : List Wire) (J : List Junction)
    (L : List Label) (C : List (String × Component)) :
    ∀ p ∈ _build_nets wires J L C,
      ∃ g ∈ buildGroups tolerance wires, ∃ i, p.2 = netFor J L C g i := by
  intro p hp
  simp only [_build_nets] at hp
  rcases fold_netFor_values J L C (buildGroups tolerance wires) ([], 0) p hp with h | h
  · simp at h
  · exact h

theorem touchesGroup_iff {tol : ℚ} {p : Point} {group : List Wire} :
    touchesGroup tol p group = true ↔ ∃ w ∈ group,
      (_points_close p w.start tol || _points_close p w.«end» tol) = true := by
  simp [touchesGroup, List.any_eq_true]

/-- Every pin attached to a group comes from the component list and coincides
with an endpoint of a wire of the group. -/
theorem attachPins_sound {tol : ℚ} {group : List Wire}
    {components : List (String × Component)} :
    ∀ rn ∈ attachPins tol group components,
      ∃ c : Component, (rn.1, c) ∈ components ∧ ∃ np ∈ c.pins,
        np.1 = rn.2 ∧ touchesGroup tol (pinAbs c np.2) group = true := by
  intro rn hrn
  unfold attachPins at hrn
  obtain ⟨l, hl, hrnl⟩ := List.mem_flatten.mp hrn
  obtain ⟨rc, hrc, rfl⟩ := List.mem_map.mp hl
  obtain ⟨np, hnp, hrneq⟩ := List.mem_map.mp hrnl
  obtain ⟨hnpmem, hnptouch⟩ := List.mem_filter.mp hnp
  subst hrneq
  refine ⟨rc.2, ?_, np, hnpmem, rfl, hnptouch⟩
  rw [show ((rc.1, np.1).1, rc.2) = rc from by rw [Prod.mk.eta]]
  exact hrc

/-- In an association list with no duplicate keys, entries with equal keys are
equal. -/
theorem assoc_entry_unique {β : Type} {m : List (String × β)}
    (h : (m.map Prod.fst).Nodup) {e1 e2 : String × β}
    (h1 : e1 ∈ m) (h2 : e2 ∈ m) (hk : e1.1 = e2.1) : e1 = e2 := by
  induction m with
  | nil => simp at h1
  | cons e rest ih =>
    simp only [List.map_cons, List.nodup_cons] at h
    rcases List.mem_cons.mp h1 with rfl | h1' <;> rcases List.mem_cons.mp h2 with rfl | h2'
    · rfl
    · exfalso
      refine h.1 ?_
      rw [hk]
      exact List.mem_map_of_mem Prod.fst h2'
    · exfalso
      refine h.1 ?_
      rw [← hk]
      exact List.mem_map_of_mem Prod.fst h1'
    · exact ih h.2 h1' h2'

theorem buildGroups_subset {tol : ℚ} {ws : List Wire} :
    ∀ g ∈ buildGroups tol ws, ∀ x ∈ g, x ∈ ws :=
  fun g hg x hx => ((buildGroups_inv tol ws).cover x).mp ⟨g, hg, hx⟩

/-! ## Claims C1, C2, C3 -/

/-- If the running net name still starts with `"Net_"`, one label-loop
iteration cannot change it: the renaming guard
`label.text and not net_name.startswith("Net_")` is false. -/
theorem attachLabelsStep_keeps_name {tol : ℚ} {group : List Wire}
    {acc : String × List Label} {lab : Label}
    (h : pyStartsWith acc.1 "Net_" = true) :
    (attachLabelsStep tol group acc lab).1 = acc.1 := by
  unfold attachLabelsStep
  split
  · simp [h]
  · rfl

theorem attachLabels_fold_keeps_name (tol : ℚ) (group : List Wire) :
    ∀ (ls : List Label) (acc : String × List Label),
      pyStartsWith acc.1 "Net_" = true →
      (ls.foldl (attachLabelsStep tol group) acc).1 = acc.1 := by
  intro ls
  induction ls with
  | nil => intro acc _; rfl
  | cons lab rest ih =>
    intro acc h
    have hstep : (attachLabelsStep tol group acc lab).1 = acc.1 :=
      attachLabelsStep_keeps_name h
    rw [List.foldl_cons, ih _ (by rw [hstep]; exact h), hstep]

def c1Wire : Wire := ⟨⟨0, 0⟩, ⟨1, 0⟩⟩

def c1Label : Label := { text := "X", position := ⟨0, 0⟩ }

/-- **C1** (code bug).  The label-override of the default net name never
happens: since the running name starts as `"Net_<i>"`, the guard
`label.text and not net_name.startswith("Net_")` is always false, so the
assignment `net_name = label.text` is dead code.  First conjunct: for any
start name beginning with `"Net_"` the label loop returns it unchanged.
Second conjunct: at a concrete failing input — one wire with an attached
non-empty label `"X"` — the emitted net is still named `"Net_0"`, with the
label attached, where the claim requires the name `"X"`. -/
theorem label_rename_guard_dead :
    (∀ (group : List Wire) (labels : List Label) (name0 : String),
      pyStartsWith name0 "Net_" = true →
      (attachLabels tolerance group labels name0).1 = name0) ∧
    _build_nets [c1Wire] [] [c1Label] [] =
      [("Net_0", ⟨"Net_0", [], [c1Wire], [], [c1Label]⟩)] := by
  constructor
  · intro group labels name0 h0
    exact attachLabels_fold_keeps_name tolerance group labels (name0, []) h0
  · norm_num [_build_nets, buildNetsStep, netFor, buildGroups, tolerance, step,
      connIdxs, hits, connectsTo, _points_close, distSq, attachLabels,
      attachLabelsStep, attachJunctions, attachPins, touchesGroup, pinAbs,
      dictSet, pyStartsWith, c1Wire, c1Label, Nat.repr, Nat.toDigits,
      Nat.toDigitsCore]
    decide

/-- Witness for C1's universally quantified conjunct at a concrete input. -/
theorem label_rename_guard_dead_witness :
    pyStartsWith "Net_7" "Net_" = true ∧
    (attachLabels tolerance [c1Wire] [c1Label] "Net_7").1 = "Net_7" :=
  ⟨by decide, label_rename_guard_dead.1 [c1Wire] [c1Label] "Net_7" (by decide)⟩

def c2W1 : Wire := ⟨⟨0, 0⟩, ⟨10, 0⟩⟩

def c2W2 : Wire := ⟨⟨10, 0⟩, ⟨10, 10⟩⟩

def c2Junction : Junction := ⟨⟨10, 0⟩⟩

def c2Label : Label := { text := "VCC", position := ⟨0, 0⟩ }

def c2Comp : Component :=
  { reference := "U1", value := .atom "", footprint := .atom "",
    position := ⟨0, 0⟩, rotation := 0, library_id := .atom "Lib:U",
    pins := [("1", { number := "1", name := .null, type := .null,
                     position := ⟨10, 10⟩ })],
    properties := [] }

/-- **C2** (code bug).  On the spec's end-to-end scenario (wires
`(0,0)-(10,0)` and `(10,0)-(10,10)`, a junction at `(10,0)`, label `"VCC"` at
`(0,0)`, component `U1` with pin 1 at absolute `(10,10)`), net synthesis does
produce exactly one net with wires `{W1,W2}`, the junction, the label and pin
`(U1,1)` — but its name is `"Net_0"`, not `"VCC"`, because the label renaming
is dead code (see C1). -/
theorem end_to_end_scenario_eval :
    _build_nets [c2W1, c2W2] [c2Junction] [c2Label] [("U1", c2Comp)] =
      [("Net_0", ⟨"Net_0", [("U1", "1")], [c2W1, c2W2], [c2Junction],
        [c2Label]⟩)] ∧
    ("Net_0" : String) ≠ "VCC" := by
  constructor
  · norm_num [_build_nets, buildNetsStep, netFor, buildGroups, tolerance, step,
      connIdxs, hits, connectsTo, _points_close, distSq, attachLabels,
      attachLabelsStep, attachJunctions, attachPins, touchesGroup, pinAbs,
      dictSet, pyStartsWith, c2W1, c2W2, c2Junction, c2Label, c2Comp,
      Nat.repr, Nat.toDigits, Nat.toDigitsCore]
    decide
  · decide

/-- **C3** (corrected, amended part).  Pin attachment is sound: every
`(reference, pin_number)` entry of an emitted net comes from the component
list, names a pin whose absolute position coincides (within tolerance) with
an endpoint of a wire of that same net, and the net's wires all come from the
input; consequently a pin whose absolute position is not coincident with any
input wire endpoint appears in no net's membership list.  (The "at most one
net" half of the original claim is false — see the counterexample.) -/
theorem build_nets_pin_attachment (wires : List Wire) (junctions : List Junction)
    (labels : List Label) (components : List (String × Component))
    (hkeys : (components.map Prod.fst).Nodup)
    (hpins : ∀ rc ∈ components, (rc.2.pins.map Prod.fst).Nodup) :
    (∀ p ∈ _build_nets wires junctions labels components,
      (∀ x ∈ p.2.wires, x ∈ wires) ∧
      ∀ rn ∈ p.2.pins, ∃ c : Component, (rn.1, c) ∈ components ∧
        ∃ np ∈ c.pins, np.1 = rn.2 ∧ ∃ w ∈ p.2.wires,
          (_points_close (pinAbs c np.2) w.start tolerance ||
            _points_close (pinAbs c np.2) w.«end» tolerance) = true) ∧
    (∀ (ref : String) (c : Component), (ref, c) ∈ components →
      ∀ np ∈ c.pins,
        (∀ w ∈ wires,
          (_points_close (pinAbs c np.2) w.start tolerance ||
            _points_close (pinAbs c np.2) w.«end» tolerance) = false) →
        ∀ p ∈ _build_nets wires junctions labels components,
          (ref, np.1) ∉ p.2.pins) := by
  have main : ∀ p ∈ _build_nets wires junctions labels components,
      (∀ x ∈ p.2.wires, x ∈ wires) ∧
      ∀ rn ∈ p.2.pins, ∃ c : Component, (rn.1, c) ∈ components ∧
        ∃ np ∈ c.pins, np.1 = rn.2 ∧ ∃ w ∈ p.2.wires,
          (_points_close (pinAbs c np.2) w.start tolerance ||
            _points_close (pinAbs c np.2) w.«end» tolerance) = true := by
    intro p hp
    obtain ⟨g, hg, i, hnet⟩ := _build_nets_values wires junctions labels components p hp
    have hw : p.2.wires = g := by rw [hnet]; rfl
    have hpinseq : p.2.pins = attachPins tolerance g components := by rw [hnet]; rfl
    constructor
    · intro x hx
      rw [hw] at hx
      exact buildGroups_subset g hg x hx
    · intro rn hrn
      rw [hpinseq] at hrn
      obtain ⟨c, hc, np, hnp, hkey, htouch⟩ := attachPins_sound rn hrn
      obtain ⟨w, hwmem, hcond⟩ := touchesGroup_iff.mp htouch
      exact ⟨c, hc, np, hnp, hkey, w, by rw [hw]; exact hwmem, hcond⟩
  refine ⟨main, ?_⟩
  intro ref c hc np hnp hfar p hp hmem
  obtain ⟨hwires, hsound⟩ := main p hp
  obtain ⟨c', hc', np', hnp', hkey, w, hwmem, hcond⟩ := hsound (ref, np.1) hmem
  have hceq : c' = c := by
    have := assoc_entry_unique hkeys hc' hc rfl
    exact congrArg Prod.snd this
  subst hceq
  have hnpeq : np' = np := by
    refine assoc_entry_unique (hpins (ref, c') hc) hnp' hnp ?_
    exact hkey
  subst hnpeq
  have := hfar w (hwires w hwmem)
  rw [this] at hcond
  exact Bool.noConfusion hcond

def c3WireA : Wire := ⟨⟨0, 0⟩, ⟨1, 0⟩⟩

def c3WireB : Wire := ⟨⟨1/50, 0⟩, ⟨2, 0⟩⟩

def c3Comp : Component :=
  { reference := "U1", value := .atom "", footprint := .atom "",
    position := ⟨0, 0⟩, rotation := 0, library_id := .atom "Lib:U",
    pins := [("1", { number := "1", name := .null, type := .null,
                     position := ⟨1/100, 0⟩ })],
    properties := [] }

/-- Witness for C3's amended theorem at a concrete input. -/
theorem build_nets_pin_attachment_witness :
    ((([("U1", c3Comp)] : List (String × Component)).map Prod.fst).Nodup ∧
      ∀ rc ∈ ([("U1", c3Comp)] : List (String × Component)),
        (rc.2.pins.map Prod.fst).Nodup) ∧
    ((∀ p ∈ _build_nets [c3WireA] [] [] [("U1", c3Comp)],
      (∀ x ∈ p.2.wires, x ∈ [c3WireA]) ∧
      ∀ rn ∈ p.2.pins, ∃ c : Component, (rn.1, c) ∈ [("U1", c3Comp)] ∧
        ∃ np ∈ c.pins, np.1 = rn.2 ∧ ∃ w ∈ p.2.wires,
          (_points_close (pinAbs c np.2) w.start tolerance ||
            _points_close (pinAbs c np.2) w.«end» tolerance) = true) ∧
    (∀ (ref : String) (c : Component), (ref, c) ∈ [("U1", c3Comp)] →
      ∀ np ∈ c.pins,
        (∀ w ∈ [c3WireA],
          (_points_close (pinAbs c np.2) w.start tolerance ||
            _points_close (pinAbs c np.2) w.«end» tolerance) = false) →
        ∀ p ∈ _build_nets [c3WireA] [] [] [("U1", c3Comp)],
          (ref, np.1) ∉ p.2.pins)) :=
  ⟨⟨by decide, by
      intro rc hrc
      rw [List.mem_singleton] at hrc
      subst hrc
      decide⟩,
    build_nets_pin_attachment [c3WireA] [] [] [("U1", c3Comp)] (by decide)
      (by
        intro rc hrc
        rw [List.mem_singleton] at hrc
        subst hrc
        decide)⟩

/-- **C3** (counterexample).  A pin within tolerance of endpoints of wires in
two different clusters is attached to both nets, refuting "every pin belongs
to at most one synthesized net": with wires `(0,0)-(1,0)` and
`(0.02,0)-(2,0)` (two clusters, endpoint distance `0.02 > ε`) and pin 1 of
`U1` at absolute `(0.01,0)` (distance exactly `ε` from both), the pair
`("U1","1")` appears in the pin lists of the two distinct nets. -/
theorem pin_in_two_nets_counterexample :
    ∃ p ∈ _build_nets [c3WireA, c3WireB] [] [] [("U1", c3Comp)],
      ∃ q ∈ _build_nets [c3WireA, c3WireB] [] [] [("U1", c3Comp)],
        p.1 ≠ q.1 ∧ ("U1", "1") ∈ p.2.pins ∧ ("U1", "1") ∈ q.2.pins := by
  have heval : _build_nets [c3WireA, c3WireB] [] [] [("U1", c3Comp)] =
      [("Net_0", ⟨"Net_0", [("U1", "1")], [c3WireA], [], []⟩),
       ("Net_1", ⟨"Net_1", [("U1", "1")], [c3WireB], [], []⟩)] := by
    norm_num [_build_nets, buildNetsStep, netFor, buildGroups, tolerance, step,
      connIdxs, hits, connectsTo, _points_close, distSq, attachLabels,
      attachLabelsStep, attachJunctions, attachPins, touchesGroup, pinAbs,
      dictSet, pyStartsWith, c3WireA, c3WireB, c3Comp, Nat.repr, Nat.toDigits,
      Nat.toDigitsCore]
    rw [show ("Net_" ++ [Nat.digitChar 0].asString) = "Net_0" from by decide,
      show ("Net_" ++ [Nat.digitChar 1].asString) = "Net_1" from by decide]
    simp
  rw [heval]
  refine ⟨_, List.mem_cons_self _ _, _,
    List.mem_cons_of_mem _ (List.mem_cons_self _ _), ?_, ?_, ?_⟩
  · decide
  · exact List.mem_singleton_self _
  · exact List.mem_singleton_self _

/-! ## Claim C8: the tolerance boundary -/

/-- **C8** (confirmed).  Two points are treated as coincident exactly when
their Euclidean distance `sqrt((dx)^2 + (dy)^2)` (the source's
`Point.distance_to`) is `≤ ε = 0.01`: the executable comparison on the
squared distance agrees with the source's square-root comparison, points at
distance exactly `ε` are coincident, and points at distance strictly greater
than `ε` are not. -/
theorem points_close_iff_sqrt_dist_le :
    (∀ p q : Point,
      _points_close p q tolerance = true ↔
        Real.sqrt ((distSq p q : ℚ) : ℝ) ≤ ((tolerance : ℚ) : ℝ)) ∧
    (∀ p q : Point,
      Real.sqrt ((distSq p q : ℚ) : ℝ) = ((tolerance : ℚ) : ℝ) →
      _points_close p q tolerance = true) ∧
    (∀ p q : Point,
      ((tolerance : ℚ) : ℝ) < Real.sqrt ((distSq p q : ℚ) : ℝ) →
      _points_close p q tolerance = false) := by
  have hiff : ∀ p q : Point,
      _points_close p q tolerance = true ↔
        Real.sqrt ((distSq p q : ℚ) : ℝ) ≤ ((tolerance : ℚ) : ℝ) := by
    intro p q
    rw [_points_close, decide_eq_true_eq, Real.sqrt_le_iff]
    have hcast : ((distSq p q : ℚ) : ℝ) ≤ ((tolerance : ℚ) : ℝ) ^ 2 ↔
        distSq p q ≤ tolerance * tolerance := by
      rw [show ((tolerance : ℚ) : ℝ) ^ 2 = ((tolerance * tolerance : ℚ) : ℝ) by
        push_cast; ring]
      exact Rat.cast_le
    constructor
    · intro h
      exact ⟨by norm_num [tolerance], hcast.mpr h⟩
    · intro h
      exact hcast.mp h.2
  refine ⟨hiff, ?_, ?_⟩
  · intro p q h
    exact (hiff p q).mpr (le_of_eq h)
  · intro p q h
    cases hb : _points_close p q tolerance with
    | false => rfl
    | true =>
      exact absurd ((hiff p q).mp hb) (not_le.mpr h)

/-- Witness for C8 at both sides of the boundary: distance exactly `ε`
(coincident) and distance `2ε` (not coincident). -/
theorem points_close_iff_sqrt_dist_le_witness :
    (Real.sqrt ((distSq ⟨0, 0⟩ ⟨1/100, 0⟩ : ℚ) : ℝ) = ((tolerance : ℚ) : ℝ) ∧
      _points_close ⟨0, 0⟩ ⟨1/100, 0⟩ tolerance = true) ∧
    (((tolerance : ℚ) : ℝ) < Real.sqrt ((distSq ⟨0, 0⟩ ⟨2/100, 0⟩ : ℚ) : ℝ) ∧
      _points_close ⟨0, 0⟩ ⟨2/100, 0⟩ tolerance = false) := by
  have h1 : Real.sqrt ((distSq ⟨0, 0⟩ ⟨1/100, 0⟩ : ℚ) : ℝ) =
      ((tolerance : ℚ) : ℝ) := by
    rw [show ((distSq (⟨0, 0⟩ : Point) (⟨1/100, 0⟩ : Point) : ℚ) : ℝ) =
        ((tolerance : ℚ) : ℝ) ^ 2 by norm_num [distSq, tolerance]]
    exact Real.sqrt_sq (by norm_num [tolerance])
  have h2 : ((tolerance : ℚ) : ℝ) <
      Real.sqrt ((distSq ⟨0, 0⟩ ⟨2/100, 0⟩ : ℚ) : ℝ) := by
    rw [show ((distSq (⟨0, 0⟩ : Point) (⟨2/100, 0⟩ : Point) : ℚ) : ℝ) =
        ((2 : ℝ)/100) ^ 2 by norm_num [distSq]]
    rw [Real.sqrt_sq (by norm_num)]
    norm_num [tolerance]
  exact ⟨⟨h1, points_close_iff_sqrt_dist_le.2.1 _ _ h1⟩,
    ⟨h2, points_close_iff_sqrt_dist_le.2.2 _ _ h2⟩⟩

/-! ## Grammar parser (`SExprParser`), claims C6, C7, C10

The parser walks `text` with a cursor `pos`.  The recursive `parse` /
`parse_list` pair is embedded with an explicit fuel argument counting the
remaining recursive calls (`none` = fuel ran out); claim C10's theorem shows
that fuel `2 * |text| + 2` is never exhausted and that any larger fuel gives
the same result, so the fueled embedding computes the function the unbounded
source recursion computes. -/

/-- The `ValueError`s raised by `SExprParser`.  Only `expectedAt`
(`f"Expected '{c}' at position {pos}"`) interpolates the cursor position into
the message; `unexpectedEnd` (`"Unexpected end of input"`) and `unterminated`
(`"Unterminated string"`) are raised with a constant message. -/
inductive PErr where
  | unexpectedEnd : PErr
  | unterminated : PErr
  | expectedAt (c : Char) (pos : Nat) : PErr
  deriving DecidableEq

/-- The byte offset carried by a parse error, read off the raise statements:
only the `expect` failure message contains the position. -/
def PErr.offset : PErr → Option Nat
  | .expectedAt _ p => some p
  | _ => none

/-- The whitespace set of `skip_whitespace` / `parse_bare_atom`:
`' \t\n\r'`. -/
def isWsChar (c : Char) : Bool :=
  c = ' ' || c = '\t' || c = '\n' || c = '\r'

/-- `SExprParser.skip_whitespace`: the cursor after skipping whitespace. -/
def skip_whitespace (t : List Char) (pos : Nat) : Nat :=
  if h : pos < t.length then
    if isWsChar (t.get ⟨pos, h⟩) then skip_whitespace t (pos + 1) else pos
  else pos
termination_by t.length - pos

/-- `SExprParser.expect`: consume the expected character or fail with the
position-carrying error. -/
def expect (t : List Char) (pos : Nat) (c : Char) : Except PErr Nat :=
  if h : pos < t.length then
    if t.get ⟨pos, h⟩ = c then .ok (pos + 1) else .error (.expectedAt c pos)
  else .error (.expectedAt c pos)

/-- The scanning loop of `parse_string`: starting just after the opening
quote, return the cursor position of the terminating quote, skipping two
characters at a backslash; `none` when the loop falls off the end. -/
def stringEnd (t : List Char) (pos : Nat) : Option Nat :=
  if h : pos < t.length then
    if t.get ⟨pos, h⟩ = '"' then some pos
    else if t.get ⟨pos, h⟩ = '\\' then stringEnd t (pos + 2)
    else stringEnd t (pos + 1)
  else none
termination_by t.length - pos

/-- `SExprParser.parse_string`: consume the opening quote, scan to the
terminating quote, and return the raw slice `text[start:pos]` between the
quotes (escape backslashes are kept verbatim, nothing is unescaped) together
with the cursor after the closing quote. -/
def parse_string (t : List Char) (pos : Nat) : Except PErr (String × Nat) :=
  match expect t pos '"' with
  | .error err => .error err
  | .ok start =>
    match stringEnd t start with
    | none => .error .unterminated
    | some e =>
      match expect t e '"' with
      | .error err => .error err
      | .ok fin => .ok (⟨(t.drop start).take (e - start)⟩, fin)

/-- A character ending a bare token: whitespace or a parenthesis. -/
def isBareDelim (c : Char) : Bool :=
  isWsChar c || c = '(' || c = ')'

/-- The scanning loop of `parse_bare_atom`: the cursor after the maximal run
of non-delimiter characters. -/
def bareEnd (t : List Char) (pos : Nat) : Nat :=
  if h : pos < t.length then
    if isBareDelim (t.get ⟨pos, h⟩) then pos else bareEnd t (pos + 1)
  else pos
termination_by t.length - pos

/-- `SExprParser.parse_bare_atom`: the slice `text[start:pos]` (possibly
empty) and the new cursor. -/
def parse_bare_atom (t : List Char) (pos : Nat) : String × Nat :=
  (⟨(t.drop pos).take (bareEnd t pos - pos)⟩, bareEnd t pos)

/-- `SExprParser.parse_atom`: a quoted string when the cursor is on `'"'`,
otherwise a bare token (`parse` only calls this with the cursor on a
character). -/
def parse_atom (t : List Char) (pos : Nat) : Except PErr (String × Nat) :=
  if t.get? pos = some '"' then parse_string t pos
  else .ok (parse_bare_atom t pos)

mutual

/-- `SExprParser.parse` with fuel: skip whitespace; at end of input return
Python `None` (`SEx.null`); on `'('` parse a list (consuming the parenthesis
through `expect`, as `parse_list` does); otherwise parse an atom. -/
def parseF : Nat → List Char → Nat → Option (Except PErr (SEx × Nat))
  | 0, _, _ => none
  | fuel + 1, t, pos =>
    let pos1 := skip_whitespace t pos
    if h : pos1 < t.length then
      if t.get ⟨pos1, h⟩ = '(' then
        match expect t pos1 '(' with
        | .error e => some (.error e)
        | .ok pos2 =>
          match parseListF fuel t pos2 [] with
          | none => none
          | some (.error e) => some (.error e)
          | some (.ok (xs, pos3)) => some (.ok (.list xs, pos3))
      else
        match parse_atom t pos1 with
        | .error e => some (.error e)
        | .ok (s, pos2) => some (.ok (.atom s, pos2))
    else some (.ok (.null, pos1))

/-- The collection loop of `SExprParser.parse_list` with fuel: skip
whitespace; at end of input raise `"Unexpected end of input"`; on `')'`
consume it and return the collected items; otherwise parse one value and
append it. -/
def parseListF : Nat → List Char → Nat → List SEx →
    Option (Except PErr (List SEx × Nat))
  | 0, _, _, _ => none
  | fuel + 1, t, pos, acc =>
    let pos1 := skip_whitespace t pos
    if h : pos1 < t.length then
      if t.get ⟨pos1, h⟩ = ')' then some (.ok (acc, pos1 + 1))
      else
        match parseF fuel t pos1 with
        | none => none
        | some (.error e) => some (.error e)
        | some (.ok (v, pos2)) => parseListF fuel t pos2 (acc ++ [v])
    else some (.error .unexpectedEnd)

end

/-- `SExprParser(text).parse()` from position 0, run with the sufficient fuel
bound of claim C10 (the `none` fallback is unreachable by that theorem). -/
def parseTop (t : List Char) : Except PErr SEx :=
  match parseF (2 * t.length + 2) t 0 with
  | some r => r.map Prod.fst
  | none => .error .unexpectedEnd

theorem skip_whitespace_ge (t : List Char) : ∀ pos, pos ≤ skip_whitespace t pos := by
  suffices hs : ∀ n pos, t.length - pos ≤ n → pos ≤ skip_whitespace t pos by
    intro pos
    exact hs (t.length - pos) pos le_rfl
  intro n
  induction n with
  | zero =>
    intro pos h
    have hlt : ¬ pos < t.length := by omega
    rw [skip_whitespace, dif_neg hlt]
  | succ n ih =>
    intro pos h
    by_cases hlt : pos < t.length
    · rw [skip_whitespace, dif_pos hlt]
      by_cases hws : isWsChar (t.get ⟨pos, hlt⟩) = true
      · rw [if_pos hws]
        have := ih (pos + 1) (by omega)
        omega
      · rw [if_neg hws]
    · rw [skip_whitespace, dif_neg hlt]

theorem skip_whitespace_not_ws (t : List Char) :
    ∀ pos (h : skip_whitespace t pos < t.length),
      isWsChar (t.get ⟨skip_whitespace t pos, h⟩) = false := by
  suffices hs : ∀ n pos, t.length - pos ≤ n →
      ∀ (h : skip_whitespace t pos < t.length),
        isWsChar (t.get ⟨skip_whitespace t pos, h⟩) = false by
    intro pos
    exact hs (t.length - pos) pos le_rfl
  intro n
  induction n with
  | zero =>
    intro pos hn
    have hlt : ¬ pos < t.length := by omega
    have he : skip_whitespace t pos = pos := by rw [skip_whitespace, dif_neg hlt]
    rw [he]
    intro hh
    exact absurd hh hlt
  | succ n ih =>
    intro pos hn
    by_cases hlt : pos < t.length
    · by_cases hws : isWsChar (t.get ⟨pos, hlt⟩) = true
      · have he : skip_whitespace t pos = skip_whitespace t (pos + 1) := by
          rw [skip_whitespace, dif_pos hlt, if_pos hws]
        rw [he]
        exact ih (pos + 1) (by omega)
      · have he : skip_whitespace t pos = pos := by
          rw [skip_whitespace, dif_pos hlt, if_neg hws]
        rw [he]
        intro hh
        simpa using hws
    · have he : skip_whitespace t pos = pos := by
        rw [skip_whitespace, dif_neg hlt]
      rw [he]
      intro hh
      exact absurd hh hlt

theorem skip_whitespace_fix (t : List Char) (pos : Nat) :
    skip_whitespace t (skip_whitespace t pos) = skip_whitespace t pos := by
  rw [skip_whitespace]
  split
  · rename_i hl
    rw [if_neg]
    rw [skip_whitespace_not_ws t pos hl]
    exact Bool.false_ne_true
  · rfl

theorem bareEnd_ge (t : List Char) : ∀ pos, pos ≤ bareEnd t pos := by
  suffices hs : ∀ n pos, t.length - pos ≤ n → pos ≤ bareEnd t pos by
    intro pos
    exact hs (t.length - pos) pos le_rfl
  intro n
  induction n with
  | zero =>
    intro pos h
    have hlt : ¬ pos < t.length := by omega
    rw [bareEnd, dif_neg hlt]
  | succ n ih =>
    intro pos h
    by_cases hlt : pos < t.length
    · rw [bareEnd, dif_pos hlt]
      by_cases hd : isBareDelim (t.get ⟨pos, hlt⟩) = true
      · rw [if_pos hd]
      · rw [if_neg hd]
        have := ih (pos + 1) (by omega)
        omega
    · rw [bareEnd, dif_neg hlt]

theorem bareEnd_gt (t : List Char) (pos : Nat) (h : pos < t.length)
    (hnd : isBareDelim (t.get ⟨pos, h⟩) = false) : pos + 1 ≤ bareEnd t pos := by
  rw [bareEnd, dif_pos h, if_neg (by rw [hnd]; exact Bool.false_ne_true)]
  exact bareEnd_ge t (pos + 1)

theorem stringEnd_ge (t : List Char) :
    ∀ pos e, stringEnd t pos = some e → pos ≤ e := by
  suffices hs : ∀ n pos, t.length - pos ≤ n →
      ∀ e, stringEnd t pos = some e → pos ≤ e by
    intro pos
    exact hs (t.length - pos) pos le_rfl
  intro n
  induction n with
  | zero =>
    intro pos h e he
    have hlt : ¬ pos < t.length := by omega
    rw [stringEnd, dif_neg hlt] at he
    exact absurd he (by simp)
  | succ n ih =>
    intro pos h e he
    by_cases hlt : pos < t.length
    · rw [stringEnd, dif_pos hlt] at he
      by_cases hq : t.get ⟨pos, hlt⟩ = '"'
      · rw [if_pos hq] at he
        obtain rfl := Option.some_inj.mp he
        exact le_refl pos
      · rw [if_neg hq] at he
        by_cases hb : t.get ⟨pos, hlt⟩ = '\\'
        · rw [if_pos hb] at he
          have := ih (pos + 2) (by omega) e he
          omega
        · rw [if_neg hb] at he
          have := ih (pos + 1) (by omega) e he
          omega
    · rw [stringEnd, dif_neg hlt] at he
      exact absurd he (by simp)

theorem stringEnd_quote (t : List Char) :
    ∀ pos e, stringEnd t pos = some e →
      ∃ h : e < t.length, t.get ⟨e, h⟩ = '"' := by
  suffices hs : ∀ n pos, t.length - pos ≤ n →
      ∀ e, stringEnd t pos = some e → ∃ h : e < t.length, t.get ⟨e, h⟩ = '"' by
    intro pos
    exact hs (t.length - pos) pos le_rfl
  intro n
  induction n with
  | zero =>
    intro pos h e he
    have hlt : ¬ pos < t.length := by omega
    rw [stringEnd, dif_neg hlt] at he
    exact absurd he (by simp)
  | succ n ih =>
    intro pos h e he
    by_cases hlt : pos < t.length
    · rw [stringEnd, dif_pos hlt] at he
      by_cases hq : t.get ⟨pos, hlt⟩ = '"'
      · rw [if_pos hq] at he
        obtain rfl := Option.some_inj.mp he
        exact ⟨hlt, hq⟩
      · rw [if_neg hq] at he
        by_cases hb : t.get ⟨pos, hlt⟩ = '\\'
        · rw [if_pos hb] at he
          exact ih (pos + 2) (by omega) e he
        · rw [if_neg hb] at he
          exact ih (pos + 1) (by omega) e he
    · rw [stringEnd, dif_neg hlt] at he
      exact absurd he (by simp)

theorem expect_ok {t : List Char} {pos : Nat} {c : Char} {p' : Nat}
    (h : expect t pos c = .ok p') :
    p' = pos + 1 ∧ ∃ hlt : pos < t.length, t.get ⟨pos, hlt⟩ = c := by
  unfold expect at h
  split at h
  · split at h
    · rename_i hlt hc
      exact ⟨((Except.ok.injEq _ _).mp h).symm, hlt, hc⟩
    · exact absurd h (by simp)
  · exact absurd h (by simp)

theorem expect_eq_ok {t : List Char} {pos : Nat} {c : Char}
    (hlt : pos < t.length) (hc : t.get ⟨pos, hlt⟩ = c) :
    expect t pos c = .ok (pos + 1) := by
  unfold expect
  rw [dif_pos hlt, if_pos hc]

/-- A successful `parse_string` advances the cursor by at least two (it
consumed both quotes). -/
theorem parse_string_advance (t : List Char) (pos : Nat) (s : String) (p' : Nat)
    (h : parse_string t pos = .ok (s, p')) : pos + 2 ≤ p' := by
  unfold parse_string at h
  cases hexp : expect t pos '"' with
  | error err => rw [hexp] at h; simp at h
  | ok start =>
    rw [hexp] at h
    dsimp only at h
    obtain ⟨rfl, -⟩ := expect_ok hexp
    cases hse : stringEnd t (pos + 1) with
    | none => rw [hse] at h; dsimp only at h; simp at h
    | some e =>
      rw [hse] at h
      dsimp only at h
      have hge := stringEnd_ge t (pos + 1) e hse
      cases hexp2 : expect t e '"' with
      | error err2 => rw [hexp2] at h; simp at h
      | ok fin =>
        rw [hexp2] at h
        dsimp only at h
        obtain ⟨rfl, -⟩ := expect_ok hexp2
        simp only [Except.ok.injEq, Prod.mk.injEq] at h
        omega

theorem parseF_eod {n : Nat} {t : List Char} {pos : Nat}
    (h : ¬ skip_whitespace t pos < t.length) :
    parseF (n + 1) t pos = some (.ok (.null, skip_whitespace t pos)) := by
  rw [parseF]
  simp only [dif_neg h]

theorem parseF_paren {n : Nat} {t : List Char} {pos : Nat}
    (h : skip_whitespace t pos < t.length)
    (hp : t.get ⟨skip_whitespace t pos, h⟩ = '(') :
    parseF (n + 1) t pos =
      match parseListF n t (skip_whitespace t pos + 1) [] with
      | none => none
      | some (.error e) => some (.error e)
      | some (.ok (xs, pos3)) => some (.ok (.list xs, pos3)) := by
  rw [parseF]
  simp only [dif_pos h, if_pos hp, expect_eq_ok h hp]

theorem parseF_atom {n : Nat} {t : List Char} {pos : Nat}
    (h : skip_whitespace t pos < t.length)
    (hp : ¬ t.get ⟨skip_whitespace t pos, h⟩ = '(') :
    parseF (n + 1) t pos =
      match parse_atom t (skip_whitespace t pos) with
      | .error e => some (.error e)
      | .ok (s, pos2) => some (.ok (.atom s, pos2)) := by
  rw [parseF]
  simp only [dif_pos h, if_neg hp]

theorem parseListF_eod {n : Nat} {t : List Char} {pos : Nat} {acc : List SEx}
    (h : ¬ skip_whitespace t pos < t.length) :
    parseListF (n + 1) t pos acc = some (.error .unexpectedEnd) := by
  rw [parseListF]
  simp only [dif_neg h]

theorem parseListF_close {n : Nat} {t : List Char} {pos : Nat} {acc : List SEx}
    (h : skip_whitespace t pos < t.length)
    (hp : t.get ⟨skip_whitespace t pos, h⟩ = ')') :
    parseListF (n + 1) t pos acc =
      some (.ok (acc, skip_whitespace t pos + 1)) := by
  rw [parseListF]
  simp only [dif_pos h, if_pos hp]

theorem parseListF_item {n : Nat} {t : List Char} {pos : Nat} {acc : List SEx}
    (h : skip_whitespace t pos < t.length)
    (hp : ¬ t.get ⟨skip_whitespace t pos, h⟩ = ')') :
    parseListF (n + 1) t pos acc =
      match parseF n t (skip_whitespace t pos) with
      | none => none
      | some (.error e) => some (.error e)
      | some (.ok (v, pos2)) => parseListF n t pos2 (acc ++ [v]) := by
  rw [parseListF]
  simp only [dif_pos h, if_neg hp]

theorem parse_atom_advance {t : List Char} {pos : Nat} {s : String} {p' : Nat}
    (h : parse_atom t pos = .ok (s, p')) : pos ≤ p' := by
  unfold parse_atom at h
  split at h
  · have := parse_string_advance t pos s p' h
    omega
  · have h2 : parse_bare_atom t pos = (s, p') := (Except.ok.injEq _ _).mp h
    have h3 : (parse_bare_atom t pos).2 = bareEnd t pos := rfl
    have h4 := congrArg Prod.snd h2
    have := bareEnd_ge t pos
    rw [h3] at h4
    omega

theorem parse_atom_advance_strict {t : List Char} {pos : Nat} {s : String}
    {p' : Nat} (hlt : pos < t.length)
    (hnw : isWsChar (t.get ⟨pos, hlt⟩) = false)
    (hnl : ¬ t.get ⟨pos, hlt⟩ = '(') (hnr : ¬ t.get ⟨pos, hlt⟩ = ')')
    (h : parse_atom t pos = .ok (s, p')) : pos + 1 ≤ p' := by
  unfold parse_atom at h
  split at h
  · have := parse_string_advance t pos s p' h
    omega
  · have hnd : isBareDelim (t.get ⟨pos, hlt⟩) = false := by
      simp only [isBareDelim, Bool.or_eq_false_iff, decide_eq_false_iff_not]
      exact ⟨⟨hnw, hnl⟩, hnr⟩
    have h2 : parse_bare_atom t pos = (s, p') := (Except.ok.injEq _ _).mp h
    have h3 : (parse_bare_atom t pos).2 = bareEnd t pos := rfl
    have h4 := congrArg Prod.snd h2
    have := bareEnd_gt t pos hlt hnd
    rw [h3] at h4
    omega

/-- Cursor advance: a successful `parse` never moves the cursor before the
whitespace-skipped start, and moves it strictly forward when it starts on a
character other than `')'`; a successful `parse_list` loop always moves the
cursor strictly forward. -/
theorem parse_advance : ∀ fuel : Nat,
    (∀ t pos v p', parseF fuel t pos = some (.ok (v, p')) →
      skip_whitespace t pos ≤ p' ∧
      ∀ h : skip_whitespace t pos < t.length,
        ¬ t.get ⟨skip_whitespace t pos, h⟩ = ')' → skip_whitespace t pos < p') ∧
    (∀ t pos acc vs p', parseListF fuel t pos acc = some (.ok (vs, p')) →
      pos < p') := by
  intro fuel
  induction fuel with
  | zero =>
    constructor
    · intro t pos v p' h
      exact absurd h (by simp [parseF])
    · intro t pos acc vs p' h
      exact absurd h (by simp [parseListF])
  | succ n ih =>
    obtain ⟨ihP, ihQ⟩ := ih
    constructor
    · intro t pos v p' h
      by_cases hlt : skip_whitespace t pos < t.length
      · by_cases hp : t.get ⟨skip_whitespace t pos, hlt⟩ = '('
        · rw [parseF_paren hlt hp] at h
          cases hpl : parseListF n t (skip_whitespace t pos + 1) [] with
          | none => rw [hpl] at h; simp at h
          | some r =>
            rw [hpl] at h
            cases r with
            | error e => simp at h
            | ok vp =>
              obtain ⟨xs, pos3⟩ := vp
              simp only [Option.some.injEq, Except.ok.injEq, Prod.mk.injEq] at h
              obtain ⟨hv, hp3⟩ := h
              have hq := ihQ t (skip_whitespace t pos + 1) [] xs pos3 hpl
              constructor
              · omega
              · intro hh hnr
                omega
        · rw [parseF_atom hlt hp] at h
          cases hpa : parse_atom t (skip_whitespace t pos) with
          | error e => rw [hpa] at h; simp at h
          | ok sp =>
            obtain ⟨s2, pos2⟩ := sp
            rw [hpa] at h
            simp only [Option.some.injEq, Except.ok.injEq, Prod.mk.injEq] at h
            obtain ⟨hv, hp2⟩ := h
            have hadv := parse_atom_advance hpa
            constructor
            · omega
            · intro hh hnr
              have hnw := skip_whitespace_not_ws t pos hlt
              have hstrict := parse_atom_advance_strict hlt hnw hp hnr hpa
              omega
      · rw [parseF_eod hlt] at h
        simp only [Option.some.injEq, Except.ok.injEq, Prod.mk.injEq] at h
        obtain ⟨hv, hp'⟩ := h
        constructor
        · omega
        · intro hh
          exact absurd hh hlt
    · intro t pos acc vs p' h
      by_cases hlt : skip_whitespace t pos < t.length
      · by_cases hp : t.get ⟨skip_whitespace t pos, hlt⟩ = ')'
        · rw [parseListF_close hlt hp] at h
          simp only [Option.some.injEq, Except.ok.injEq, Prod.mk.injEq] at h
          obtain ⟨-, hp'⟩ := h
          have := skip_whitespace_ge t pos
          omega
        · rw [parseListF_item hlt hp] at h
          cases hpf : parseF n t (skip_whitespace t pos) with
          | none => rw [hpf] at h; simp at h
          | some r =>
            rw [hpf] at h
            cases r with
            | error e => simp at h
            | ok vp =>
              obtain ⟨v, pos2⟩ := vp
              have hfix := skip_whitespace_fix t pos
              have hPadv := ihP t (skip_whitespace t pos) v pos2 hpf
              have hstrict : skip_whitespace t pos < pos2 := by
                have h2 := hPadv.2
                rw [hfix] at h2
                exact h2 hlt hp
              have hrec := ihQ t pos2 (acc ++ [v]) vs p' h
              have := skip_whitespace_ge t pos
              omega
      · rw [parseListF_eod hlt] at h
        simp at h

/-- Fuel `2*(remaining length)+2` (for `parse`) resp. `+3` (for the list
loop) is sufficient: any two fuels above the bound give the same result, and
that result is not the out-of-fuel marker. -/
theorem parse_fuel_sufficient : ∀ n : Nat,
    (∀ t pos f1 f2, 2 * (t.length - pos) < n →
      2 * (t.length - pos) + 2 ≤ f1 → 2 * (t.length - pos) + 2 ≤ f2 →
      parseF f1 t pos = parseF f2 t pos ∧ (parseF f1 t pos).isSome = true) ∧
    (∀ t pos acc f1 f2, 2 * (t.length - pos) + 1 < n →
      2 * (t.length - pos) + 3 ≤ f1 → 2 * (t.length - pos) + 3 ≤ f2 →
      parseListF f1 t pos acc = parseListF f2 t pos acc ∧
        (parseListF f1 t pos acc).isSome = true) := by
  intro n
  induction n using Nat.strong_induction_on with
  | _ n ih =>
    constructor
    · intro t pos f1 f2 hn hf1 hf2
      obtain ⟨g1, rfl⟩ : ∃ g, f1 = g + 1 := ⟨f1 - 1, by omega⟩
      obtain ⟨g2, rfl⟩ : ∃ g, f2 = g + 1 := ⟨f2 - 1, by omega⟩
      have hskipge := skip_whitespace_ge t pos
      by_cases hlt : skip_whitespace t pos < t.length
      · by_cases hp : t.get ⟨skip_whitespace t pos, hlt⟩ = '('
        · rw [parseF_paren hlt hp, parseF_paren hlt hp]
          have hrec := (ih (2 * (t.length - (skip_whitespace t pos + 1)) + 2)
            (by omega)).2 t (skip_whitespace t pos + 1) [] g1 g2
            (by omega) (by omega) (by omega)
          obtain ⟨heq, hsome⟩ := hrec
          obtain ⟨r, hr⟩ := Option.isSome_iff_exists.mp hsome
          rw [hr] at heq
          rw [hr, ← heq]
          cases r with
          | error e => exact ⟨rfl, rfl⟩
          | ok vp =>
            obtain ⟨xs, pos3⟩ := vp
            exact ⟨rfl, rfl⟩
        · rw [parseF_atom hlt hp, parseF_atom hlt hp]
          cases parse_atom t (skip_whitespace t pos) with
          | error e => exact ⟨rfl, rfl⟩
          | ok sp =>
            obtain ⟨s2, pos2⟩ := sp
            exact ⟨rfl, rfl⟩
      · rw [parseF_eod hlt, parseF_eod hlt]
        exact ⟨rfl, rfl⟩
    · intro t pos acc f1 f2 hn hf1 hf2
      obtain ⟨g1, rfl⟩ : ∃ g, f1 = g + 1 := ⟨f1 - 1, by omega⟩
      obtain ⟨g2, rfl⟩ : ∃ g, f2 = g + 1 := ⟨f2 - 1, by omega⟩
      have hskipge := skip_whitespace_ge t pos
      by_cases hlt : skip_whitespace t pos < t.length
      · by_cases hp : t.get ⟨skip_whitespace t pos, hlt⟩ = ')'
        · rw [parseListF_close hlt hp, parseListF_close hlt hp]
          exact ⟨rfl, rfl⟩
        · rw [parseListF_item hlt hp, parseListF_item hlt hp]
          have hrecP := (ih (2 * (t.length - skip_whitespace t pos) + 1)
            (by omega)).1 t (skip_whitespace t pos) g1 g2
            (by omega) (by omega) (by omega)
          obtain ⟨heqP, hsomeP⟩ := hrecP
          obtain ⟨r, hr⟩ := Option.isSome_iff_exists.mp hsomeP
          rw [hr] at heqP
          rw [hr, ← heqP]
          cases r with
          | error e => exact ⟨rfl, rfl⟩
          | ok vp =>
            obtain ⟨v, pos2⟩ := vp
            have hPadv := (parse_advance g1).1 t (skip_whitespace t pos) v pos2 hr
            have hfix := skip_whitespace_fix t pos
            have hstrict : skip_whitespace t pos < pos2 := by
              have h2 := hPadv.2
              rw [hfix] at h2
              exact h2 hlt hp
            exact (ih (2 * (t.length - pos2) + 2) (by omega)).2 t pos2
              (acc ++ [v]) g1 g2 (by omega) (by omega) (by omega)
      · rw [parseListF_eod hlt, parseListF_eod hlt]
        exact ⟨rfl, rfl⟩

/-- **C10** (confirmed).  The grammar parser terminates on every finite
input: running `parse` with any fuel of at least `2*|text|+2` recursive calls
gives the same result as with exactly that bound, and that result is a value
or an error, never fuel exhaustion — so the source's unbounded recursion
finishes after finitely many steps.  Moreover every iteration of the
`parse_list` loop strictly advances the cursor. -/
theorem parser_terminates :
    (∀ (t : List Char) (fuel : Nat), 2 * t.length + 2 ≤ fuel →
      parseF fuel t 0 = parseF (2 * t.length + 2) t 0 ∧
      (parseF fuel t 0).isSome = true) ∧
    (∀ fuel t pos acc vs p',
      parseListF fuel t pos acc = some (.ok (vs, p')) → pos < p') := by
  constructor
  · intro t fuel hf
    have h := (parse_fuel_sufficient (2 * t.length + 1)).1 t 0 fuel
      (2 * t.length + 2) (by omega) (by omega) (by omega)
    exact h
  · intro fuel t pos acc vs p' h
    exact (parse_advance fuel).2 t pos acc vs p' h

/-- Witness for C10 at a concrete input `"(a)"`. -/
theorem parser_terminates_witness :
    (parseF 20 ['(', 'a', ')'] 0 = parseF 8 ['(', 'a', ')'] 0 ∧
      (parseF 20 ['(', 'a', ')'] 0).isSome = true) ∧ (1 : Nat) < 3 :=
  ⟨parser_terminates.1 ['(', 'a', ')'] 20 (by decide),
   parser_terminates.2 8 ['(', 'a', ')'] 1 [] [SEx.atom "a"] 3 (by
     simp [parseListF, parseF, skip_whitespace, parse_atom, parse_string,
       parse_bare_atom, bareEnd, stringEnd, expect, isWsChar, isBareDelim])⟩

/-- Structural restatement of the `parse_string` scanning loop on the suffix
after the opening quote: offset of the terminating quote, skipping two
characters at a backslash. -/
def scanStr : List Char → Option Nat
  | [] => none
  | c :: cs =>
    if c = '"' then some 0
    else if c = '\\' then
      match cs with
      | [] => none
      | _ :: cs' => (scanStr cs').map (· + 2)
    else (scanStr cs).map (· + 1)

theorem stringEnd_eq_scanStr (t : List Char) :
    ∀ pos, stringEnd t pos = (scanStr (t.drop pos)).map (pos + ·) := by
  suffices hs : ∀ n pos, t.length - pos ≤ n →
      stringEnd t pos = (scanStr (t.drop pos)).map (pos + ·) by
    intro pos
    exact hs (t.length - pos) pos le_rfl
  intro n
  induction n with
  | zero =>
    intro pos h
    have hlt : ¬ pos < t.length := by omega
    rw [stringEnd, dif_neg hlt, List.drop_eq_nil_of_le (by omega)]
    rfl
  | succ n ih =>
    intro pos h
    by_cases hlt : pos < t.length
    · rw [stringEnd, dif_pos hlt, List.drop_eq_getElem_cons hlt, scanStr.eq_def]
      dsimp only
      by_cases hq : t.get ⟨pos, hlt⟩ = '"'
      · rw [if_pos hq, if_pos (show (t[pos] : Char) = '"' from hq)]
        rfl
      · rw [if_neg hq, if_neg (show ¬ (t[pos] : Char) = '"' from hq)]
        by_cases hb : t.get ⟨pos, hlt⟩ = '\\'
        · rw [if_pos hb, if_pos (show (t[pos] : Char) = '\\' from hb)]
          rw [ih (pos + 2) (by omega)]
          by_cases h1 : pos + 1 < t.length
          · rw [show t.drop (pos + 1) = t[pos + 1] :: t.drop (pos + 2) from
              List.drop_eq_getElem_cons h1]
            cases hsc : scanStr (t.drop (pos + 2)) with
            | none => simp [hsc]
            | some k =>
              simp [hsc]
              omega
          · have hd1 : t.drop (pos + 1) = ([] : List Char) :=
              List.drop_eq_nil_of_le (by omega)
            have hd2 : t.drop (pos + 2) = ([] : List Char) :=
              List.drop_eq_nil_of_le (by omega)
            rw [hd1, hd2]
            rfl
        · rw [if_neg hb, if_neg (show ¬ (t[pos] : Char) = '\\' from hb)]
          rw [ih (pos + 1) (by omega)]
          cases hsc : scanStr (t.drop (pos + 1)) with
          | none => simp [hsc]
          | some k =>
            simp [hsc]
            omega
    · rw [stringEnd, dif_neg hlt, List.drop_eq_nil_of_le (by omega)]
      rfl

theorem scanStr_append_clean :
    ∀ (u v : List Char), (∀ c ∈ u, ¬ c = '"' ∧ ¬ c = '\\') →
      scanStr (u ++ v) = (scanStr v).map (· + u.length) := by
  intro u
  induction u with
  | nil =>
    intro v _
    cases hv : scanStr v <;> simp [hv]
  | cons c u' ih =>
    intro v hc
    obtain ⟨hq, hb⟩ := hc c (List.mem_cons_self _ _)
    rw [List.cons_append]
    rw [show scanStr (c :: (u' ++ v)) = (scanStr (u' ++ v)).map (· + 1) from by
      rw [scanStr.eq_def]
      simp only [hq, hb, if_false]]
    rw [ih v (fun d hd => hc d (List.mem_cons_of_mem _ hd))]
    cases hv : scanStr v with
    | none => rfl
    | some k =>
      simp only [Option.map_some', Option.some.injEq, List.length_cons]
      omega

/-- **C6** (corrected, amended part).  A backslash escape prevents the string
scanner from terminating at the escaped quote, but the escape sequence is
preserved verbatim in the returned atom — the backslash is not removed and the
escaped character is not decoded: for any quote-free and backslash-free
segments `a` and `b`, parsing the quoted atom `"a\\"b"` returns the raw slice
`a\\"b` (with the backslash) and the cursor after the closing quote. -/
theorem parse_string_preserves_escapes (a b : List Char)
    (ha : ∀ c ∈ a, ¬ c = '"' ∧ ¬ c = '\\')
    (hb : ∀ c ∈ b, ¬ c = '"' ∧ ¬ c = '\\') :
    parse_string ('"' :: a ++ '\\' :: '"' :: b ++ ['"']) 0 =
      .ok (⟨a ++ '\\' :: '"' :: b⟩, a.length + b.length + 4) := by
  have hlen : ('"' :: a ++ '\\' :: '"' :: b ++ ['"'] : List Char).length =
      a.length + b.length + 4 := by
    simp only [List.length_cons, List.length_append, List.length_nil]
    omega
  have hget0 : ('"' :: a ++ '\\' :: '"' :: b ++ ['"'] : List Char).get
      ⟨0, by omega⟩ = '"' := rfl
  have hscan_b : scanStr (b ++ ['"']) = some b.length := by
    rw [scanStr_append_clean b ['"'] hb]
    simp [scanStr]
  have hscan_mid : scanStr ('\\' :: '"' :: b ++ ['"']) = some (b.length + 2) := by
    simp [scanStr, hscan_b]
  have hscan_all : scanStr (a ++ '\\' :: '"' :: b ++ ['"']) =
      some (b.length + 2 + a.length) := by
    rw [List.append_assoc, scanStr_append_clean a _ ha, hscan_mid]
    rfl
  have hdrop1 : List.drop 1 ('"' :: a ++ '\\' :: '"' :: b ++ ['"'] : List Char) =
      a ++ '\\' :: '"' :: b ++ ['"'] := rfl
  have hse : stringEnd ('"' :: a ++ '\\' :: '"' :: b ++ ['"']) 1 =
      some (a.length + b.length + 3) := by
    rw [stringEnd_eq_scanStr _ 1, hdrop1, hscan_all]
    simp only [Option.map_some', Option.some.injEq]
    omega
  obtain ⟨helt, hgete⟩ := stringEnd_quote _ 1 _ hse
  have htake : (List.drop 1
      ('"' :: a ++ '\\' :: '"' :: b ++ ['"'] : List Char)).take
      (a.length + b.length + 3 - 1) = a ++ '\\' :: '"' :: b := by
    rw [hdrop1, show (a ++ '\\' :: '"' :: b ++ ['"'] : List Char) =
      (a ++ '\\' :: '"' :: b) ++ ['"'] from by simp]
    rw [List.take_left']
    simp only [List.length_append, List.length_cons]
    omega
  unfold parse_string
  simp only [expect_eq_ok (show (0:Nat) <
      ('"' :: a ++ '\\' :: '"' :: b ++ ['"'] : List Char).length from by omega)
    hget0, Nat.zero_add, hse, expect_eq_ok helt hgete, htake,
    Except.ok.injEq, Prod.mk.injEq, true_and]

/-- Witness for C6's amended theorem at concrete segments. -/
theorem parse_string_preserves_escapes_witness :
    ((∀ c ∈ ['x'], ¬ c = '"' ∧ ¬ c = '\\') ∧
      (∀ c ∈ ['y'], ¬ c = '"' ∧ ¬ c = '\\')) ∧
    parse_string ('"' :: ['x'] ++ '\\' :: '"' :: ['y'] ++ ['"']) 0 =
      .ok (⟨['x'] ++ '\\' :: '"' :: ['y']⟩, 6) :=
  ⟨⟨by decide, by decide⟩,
    parse_string_preserves_escapes ['x'] ['y'] (by decide) (by decide)⟩

/-- **C6** (counterexample).  Parsing the quoted atom `"a\"b"` yields the raw
four-character slice `a\"b` — with the backslash still present — not the
three-character `a"b` that decoding "the escaped character itself" would
give. -/
theorem escaped_quote_kept_verbatim :
    parse_string ['"', 'a', '\\', '"', 'b', '"'] 0 =
      .ok (⟨['a', '\\', '"', 'b']⟩, 6) ∧
    (⟨['a', '\\', '"', 'b']⟩ : String) ≠ ⟨['a', '"', 'b']⟩ := by
  have hse : stringEnd ['"', 'a', '\\', '"', 'b', '"'] 1 = some 5 := by
    rw [stringEnd_eq_scanStr]
    decide
  constructor
  · unfold parse_string
    rw [show expect ['"', 'a', '\\', '"', 'b', '"'] 0 '"' = .ok 1 from rfl]
    dsimp only
    rw [hse]
    rfl
  · decide

/-- `skip_whitespace` does not move off a non-whitespace character. -/
theorem skip_whitespace_eq_self {t : List Char} {pos : Nat} (h : pos < t.length)
    (hnw : isWsChar (t.get ⟨pos, h⟩) = false) : skip_whitespace t pos = pos := by
  rw [skip_whitespace, dif_pos h, if_neg (by rw [hnw]; exact Bool.false_ne_true)]

theorem parseF_atom_at {n : Nat} {t : List Char} {pos : Nat} (h : pos < t.length)
    (hnw : isWsChar (t.get ⟨pos, h⟩) = false) (hp : ¬ t.get ⟨pos, h⟩ = '(') :
    parseF (n + 1) t pos =
      match parse_atom t pos with
      | .error e => some (.error e)
      | .ok (s, pos2) => some (.ok (.atom s, pos2)) := by
  have hskip := skip_whitespace_eq_self h hnw
  rw [parseF]
  simp only [hskip, dif_pos h, if_neg hp]

theorem parseF_paren_at {n : Nat} {t : List Char} {pos : Nat} (h : pos < t.length)
    (hnw : isWsChar (t.get ⟨pos, h⟩) = false) (hp : t.get ⟨pos, h⟩ = '(') :
    parseF (n + 1) t pos =
      match parseListF n t (pos + 1) [] with
      | none => none
      | some (.error e) => some (.error e)
      | some (.ok (xs, pos3)) => some (.ok (.list xs, pos3)) := by
  have hskip := skip_whitespace_eq_self h hnw
  rw [parseF]
  simp only [hskip, dif_pos h, if_pos hp, expect_eq_ok h hp]

theorem parseListF_item_at {n : Nat} {t : List Char} {pos : Nat} {acc : List SEx}
    (h : pos < t.length) (hnw : isWsChar (t.get ⟨pos, h⟩) = false)
    (hp : ¬ t.get ⟨pos, h⟩ = ')') :
    parseListF (n + 1) t pos acc =
      match parseF n t pos with
      | none => none
      | some (.error e) => some (.error e)
      | some (.ok (v, pos2)) => parseListF n t pos2 (acc ++ [v]) := by
  have hskip := skip_whitespace_eq_self h hnw
  rw [parseListF]
  simp only [hskip, dif_pos h, if_neg hp]

/-- The scanning loop never finds a terminating quote in quote-free text. -/
theorem scanStr_no_quote :
    ∀ (n : Nat) (l : List Char), l.length ≤ n → (∀ c ∈ l, ¬ c = '"') →
      scanStr l = none := by
  intro n
  induction n with
  | zero =>
    intro l hn _
    have : l = [] := List.eq_nil_of_length_eq_zero (by omega)
    subst this
    rfl
  | succ n ih =>
    intro l hn hq
    cases l with
    | nil => rfl
    | cons c cs =>
      rw [scanStr.eq_def]
      simp only [hq c (List.mem_cons_self _ _), if_false]
      by_cases hb : c = '\\'
      · rw [if_pos hb]
        cases cs with
        | nil => rfl
        | cons d cs' =>
          have hrec := ih cs' (by simp at hn ⊢; omega)
            (fun e he => hq e (List.mem_cons_of_mem _ (List.mem_cons_of_mem _ he)))
          simp [hrec]
      · rw [if_neg hb]
        rw [ih cs (by simp at hn ⊢; omega)
          (fun e he => hq e (List.mem_cons_of_mem _ he))]
        rfl

/-- In a text whose characters after position 0 include no parenthesis and no
quote, the `parse_list` collection loop never finds a closing parenthesis: it
consumes bare atoms until the cursor falls off the end, then raises the
constant-message `"Unexpected end of input"`. -/
theorem parseListF_no_close : ∀ fuel : Nat, ∀ (t : List Char) (pos : Nat)
    (acc : List SEx), 1 ≤ pos →
    (∀ i (h : i < t.length), 1 ≤ i →
      ¬ t.get ⟨i, h⟩ = '(' ∧ ¬ t.get ⟨i, h⟩ = ')' ∧ ¬ t.get ⟨i, h⟩ = '"') →
    2 * (t.length - pos) + 2 ≤ fuel →
    parseListF fuel t pos acc = some (.error .unexpectedEnd) := by
  intro fuel
  induction fuel using Nat.strong_induction_on with
  | _ fuel ih =>
    intro t pos acc hpos hchars hfuel
    obtain ⟨n, rfl⟩ : ∃ n, fuel = n + 1 := ⟨fuel - 1, by omega⟩
    have hskipge := skip_whitespace_ge t pos
    by_cases hlt : skip_whitespace t pos < t.length
    · have hnw := skip_whitespace_not_ws t pos hlt
      have hch := hchars (skip_whitespace t pos) hlt (by omega)
      rw [parseListF_item hlt hch.2.1]
      obtain ⟨m, rfl⟩ : ∃ m, n = m + 1 := ⟨n - 1, by omega⟩
      rw [parseF_atom_at hlt hnw hch.1]
      have hget : t.get? (skip_whitespace t pos) =
          some (t.get ⟨skip_whitespace t pos, hlt⟩) := List.get?_eq_get hlt
      have hatom : parse_atom t (skip_whitespace t pos) =
          .ok (parse_bare_atom t (skip_whitespace t pos)) := by
        unfold parse_atom
        rw [if_neg]
        intro hc
        rw [hget] at hc
        exact hch.2.2 (Option.some.inj hc)
      rw [hatom]
      dsimp only [parse_bare_atom]
      have hnd : isBareDelim (t.get ⟨skip_whitespace t pos, hlt⟩) = false := by
        simp only [isBareDelim, Bool.or_eq_false_iff, decide_eq_false_iff_not]
        exact ⟨⟨hnw, hch.1⟩, hch.2.1⟩
      have hbe := bareEnd_gt t (skip_whitespace t pos) hlt hnd
      exact ih (m + 1) (by omega) t (bareEnd t (skip_whitespace t pos)) _
        (by omega) hchars (by omega)
    · exact parseListF_eod hlt

/-- **C7** (counterexample).  The unterminated quoted string `"ab` is
malformed input, and `parse` fails on it fatally — but with the
constant-message `ValueError("Unterminated string")`, which carries no byte
offset, against the claim that every parse failure carries the byte offset of
the failure. -/
theorem unterminated_error_has_no_offset :
    parseTop ['"', 'a', 'b'] = .error .unterminated ∧
    PErr.offset .unterminated = none := by
  constructor
  · simp [parseTop, parseF, parseListF, parse_atom, parse_string,
      parse_bare_atom, bareEnd, stringEnd, expect, skip_whitespace, isWsChar,
      isBareDelim, Except.map]
  · rfl

/-- **C7** (corrected, amended part).  Malformed input is fatal to the whole
call — `parse` returns an error and no partial result — but the reachable
errors are offset-free `ValueError`s, not position-carrying `SyntaxError`s:
an unterminated quoted string raises the constant message
`"Unterminated string"`, and end-of-input inside an open list raises the
constant message `"Unexpected end of input"`; neither carries a byte
offset. -/
theorem malformed_input_fatal_errors :
    (∀ cs : List Char, (∀ c ∈ cs, ¬ c = '"') →
      parseTop ('"' :: cs) = .error .unterminated ∧
      PErr.offset .unterminated = none) ∧
    (∀ cs : List Char, (∀ c ∈ cs, ¬ c = '(' ∧ ¬ c = ')' ∧ ¬ c = '"') →
      parseTop ('(' :: cs) = .error .unexpectedEnd ∧
      PErr.offset .unexpectedEnd = none) := by
  constructor
  · intro cs hq
    refine ⟨?_, rfl⟩
    unfold parseTop
    obtain ⟨g, hg⟩ : ∃ g, 2 * ('"' :: cs).length + 2 = g + 1 :=
      ⟨2 * ('"' :: cs).length + 1, rfl⟩
    have h0 : (0 : Nat) < ('"' :: cs).length := by simp
    have hnw : isWsChar (('"' :: cs).get ⟨0, h0⟩) = false := rfl
    have hp : ¬ ('"' :: cs).get ⟨0, h0⟩ = '(' := by
      rw [show ('"' :: cs).get ⟨0, h0⟩ = '"' from rfl]
      decide
    rw [hg, parseF_atom_at h0 hnw hp]
    have hatom : parse_atom ('"' :: cs) 0 = parse_string ('"' :: cs) 0 := by
      unfold parse_atom
      rw [if_pos (show ('"' :: cs).get? 0 = some '"' from rfl)]
    have hend : stringEnd ('"' :: cs) (0 + 1) = none := by
      rw [stringEnd_eq_scanStr,
        show ('"' :: cs).drop (0 + 1) = cs from rfl,
        scanStr_no_quote cs.length cs le_rfl hq]
      rfl
    have hps : parse_string ('"' :: cs) 0 = .error .unterminated := by
      unfold parse_string
      rw [expect_eq_ok h0 (show ('"' :: cs).get ⟨0, h0⟩ = '"' from rfl)]
      dsimp only
      rw [hend]
    rw [hatom, hps]
    rfl
  · intro cs hcs
    refine ⟨?_, rfl⟩
    unfold parseTop
    obtain ⟨g, hg⟩ : ∃ g, 2 * ('(' :: cs).length + 2 = g + 1 :=
      ⟨2 * ('(' :: cs).length + 1, rfl⟩
    have h0 : (0 : Nat) < ('(' :: cs).length := by simp
    have hnw : isWsChar (('(' :: cs).get ⟨0, h0⟩) = false := rfl
    have hp : ('(' :: cs).get ⟨0, h0⟩ = '(' := rfl
    rw [hg, parseF_paren_at h0 hnw hp]
    have hlen : ('(' :: cs).length = cs.length + 1 := rfl
    have hl : parseListF g ('(' :: cs) 1 [] = some (.error .unexpectedEnd) := by
      apply parseListF_no_close g ('(' :: cs) 1 [] le_rfl
      · intro i h hi
        obtain ⟨j, rfl⟩ : ∃ j, i = j + 1 := ⟨i - 1, by omega⟩
        have hj : j < cs.length := by
          rw [hlen] at h
          omega
        have hget : ('(' :: cs).get ⟨j + 1, h⟩ = cs.get ⟨j, hj⟩ := rfl
        rw [hget]
        exact hcs _ (cs.get_mem j hj)
      · omega
    rw [hl]
    rfl

/-- Witness for C7's amended theorem at concrete malformed inputs. -/
theorem malformed_input_fatal_errors_witness :
    ((parseTop ['"', 'x'] = .error .unterminated ∧
        PErr.offset .unterminated = none) ∧
      (parseTop ['(', 'x'] = .error .unexpectedEnd ∧
        PErr.offset .unexpectedEnd = none)) ∧
    (∀ c ∈ ['x'], ¬ c = '"') ∧
    (∀ c ∈ ['x'], ¬ c = '(' ∧ ¬ c = ')' ∧ ¬ c = '"') :=
  ⟨⟨malformed_input_fatal_errors.1 ['x'] (by decide),
    malformed_input_fatal_errors.2 ['x'] (by decide)⟩,
   by decide, by decide⟩

/-! ## Record extraction: `_parse_wire`

The extraction methods walk the parsed `SEx` tree.  Python exceptions
(`IndexError` on a too-short list, `ValueError`/`TypeError` from `float`)
are modelled by `Option`: `none` means the call raises. -/

/-- Numeric value of a decimal digit character. -/
def digToNat (c : Char) : Nat := c.toNat - 48

/-- Value of a digit run, most significant first. -/
def digitsVal (l : List Char) : Nat := l.foldl (fun a c => 10 * a + digToNat c) 0

/-- Python `float` on an unsigned decimal literal: a digit run with an
optional decimal point, at least one digit in total; anything else (the
exponent, special and underscore forms never produced by KiCad coordinates)
is a `ValueError`. -/
def pyFloatCore (l : List Char) : Option ℚ :=
  let ip := l.takeWhile (fun c => ¬ c = '.')
  let rest := l.dropWhile (fun c => ¬ c = '.')
  match rest with
  | [] => if ip ≠ [] ∧ ip.all Char.isDigit then some ((digitsVal ip : ℚ)) else none
  | _ :: fp =>
    if (ip.all Char.isDigit ∧ fp.all Char.isDigit) ∧ (ip ≠ [] ∨ fp ≠ []) then
      some ((digitsVal ip : ℚ) + (digitsVal fp : ℚ) / (10 : ℚ) ^ fp.length)
    else none

/-- Python `float(s)` on a string: an optional sign followed by a decimal
literal. -/
def pyFloat (s : String) : Option ℚ :=
  match s.data with
  | [] => none
  | c :: l =>
    if c = '-' then (pyFloatCore l).map (fun q => -q)
    else if c = '+' then pyFloatCore l
    else pyFloatCore (c :: l)

/-- `float` applied to a parsed value: only an atom (a Python string) can
convert; `float` of a list or of `None` raises `TypeError`. -/
def floatOf : SEx → Option ℚ
  | .atom s => pyFloat s
  | _ => none

/-- `Point(float(pt_item[1]), float(pt_item[2]))` on the tail of an `xy`
node: `none` when an index is missing or a conversion fails. -/
def ptOfXy : List SEx → Option Point
  | a :: b :: _ =>
    match floatOf a, floatOf b with
    | some x, some y => some ⟨x, y⟩
    | _, _ => none
  | _ => none

/-- The inner loop of `_parse_wire` over the children of a `pts` node:
collect the point of every list child whose head is the atom `xy`
(`pt_item[0]` of an empty list child raises `IndexError`). -/
def ptsOfSub : List SEx → Option (List Point)
  | [] => some []
  | .list [] :: _ => none
  | .list (.atom s :: args) :: rest =>
    if s = "xy" then
      match ptOfXy args, ptsOfSub rest with
      | some p, some ps => some (p :: ps)
      | _, _ => none
    else ptsOfSub rest
  | .list (.list _ :: _) :: rest => ptsOfSub rest
  | .list (.null :: _) :: rest => ptsOfSub rest
  | .atom _ :: rest => ptsOfSub rest
  | .null :: rest => ptsOfSub rest

/-- The outer loop of `_parse_wire` over `item[1:]`: every list child whose
head is the atom `pts` contributes its collected points in order
(`subitem[0]` of an empty list child raises `IndexError`). -/
def wirePts : List SEx → Option (List Point)
  | [] => some []
  | .list [] :: _ => none
  | .list (.atom s :: tl) :: rest =>
    if s = "pts" then
      match ptsOfSub tl, wirePts rest with
      | some ps, some qs => some (ps ++ qs)
      | _, _ => none
    else wirePts rest
  | .list (.list _ :: _) :: rest => wirePts rest
  | .list (.null :: _) :: rest => wirePts rest
  | .atom _ :: rest => wirePts rest
  | .null :: rest => wirePts rest

/-- `KiCadSchematicParser._parse_wire`: collect the points, then
`Wire(pts[0], pts[1])` when at least two were found, else the degenerate
wire at the origin. -/
def _parse_wire (item : List SEx) : Option Wire :=
  match wirePts (item.drop 1) with
  | none => none
  | some pts =>
    match pts with
    | p0 :: p1 :: _ => some ⟨p0, p1⟩
    | _ => some ⟨⟨0, 0⟩, ⟨0, 0⟩⟩

/-- A wire node whose `pts` child holds the three points `(0,0)`, `(1,1)`,
`(2,2)`. -/
def c5Item : List SEx :=
  [.atom "wire",
   .list [.atom "pts",
     .list [.atom "xy", .atom "0", .atom "0"],
     .list [.atom "xy", .atom "1", .atom "1"],
     .list [.atom "xy", .atom "2", .atom "2"]]]

/-- A wire node with the two points `(3,4)` and `(5,6)`. -/
def c5WitnessItem : List SEx :=
  [.atom "wire",
   .list [.atom "pts",
     .list [.atom "xy", .atom "3", .atom "4"],
     .list [.atom "xy", .atom "5", .atom "6"]]]

/-- **C5** (counterexample).  On a wire node with the three points `(0,0)`,
`(1,1)`, `(2,2)`, the code builds `Wire(pts[0], pts[1])` — the first and
SECOND points — not the wire from the first and last points that the spec
describes. -/
theorem wire_uses_second_point_not_last :
    _parse_wire c5Item = some ⟨⟨0, 0⟩, ⟨1, 1⟩⟩ ∧
    ¬ (⟨⟨0, 0⟩, ⟨1, 1⟩⟩ : Wire) = ⟨⟨0, 0⟩, ⟨2, 2⟩⟩ := by
  constructor
  · norm_num +decide [c5Item, _parse_wire, wirePts, ptsOfSub, ptOfXy, floatOf,
      pyFloat, pyFloatCore, show digitsVal ['0'] = 0 from by decide,
      show digitsVal ['1'] = 1 from by decide,
      show digitsVal ['2'] = 2 from by decide]
  · intro hc
    have h2 := congrArg (fun w : Wire => w.«end».x) hc
    norm_num at h2

/-- **C5** (corrected, amended part).  Whenever the point-collection loop of
`_parse_wire` succeeds with point list `pts`, the resulting wire joins the
FIRST and SECOND collected points (`pts[0]`, `pts[1]`) — regardless of how
many further points follow — and with fewer than two points the result is
the degenerate zero-length wire at the origin. -/
theorem parse_wire_first_two_points (item : List SEx) (pts : List Point)
    (h : wirePts (item.drop 1) = some pts) :
    (∀ p0 p1 rest, pts = p0 :: p1 :: rest →
      _parse_wire item = some ⟨p0, p1⟩) ∧
    (pts.length < 2 → _parse_wire item = some ⟨⟨0, 0⟩, ⟨0, 0⟩⟩) := by
  constructor
  · intro p0 p1 rest hpts
    unfold _parse_wire
    rw [h, hpts]
  · intro hlen
    unfold _parse_wire
    rw [h]
    cases pts with
    | nil => rfl
    | cons p ps =>
      cases ps with
      | nil => rfl
      | cons q qs =>
        simp at hlen
        omega
/-- Witness for C5's amended theorem at a concrete two-point wire node. -/
theorem parse_wire_first_two_points_witness :
    wirePts (c5WitnessItem.drop 1) = some [⟨3, 4⟩, ⟨5, 6⟩] ∧
    _parse_wire c5WitnessItem = some ⟨⟨3, 4⟩, ⟨5, 6⟩⟩ := by
  have h : wirePts (c5WitnessItem.drop 1) = some [⟨3, 4⟩, ⟨5, 6⟩] := by
    norm_num +decide [c5WitnessItem, wirePts, ptsOfSub, ptOfXy, floatOf,
      pyFloat, pyFloatCore, show digitsVal ['3'] = 3 from by decide,
      show digitsVal ['4'] = 4 from by decide,
      show digitsVal ['5'] = 5 from by decide,
      show digitsVal ['6'] = 6 from by decide]
  exact ⟨h, (parse_wire_first_two_points c5WitnessItem [⟨3, 4⟩, ⟨5, 6⟩] h).1
    ⟨3, 4⟩ ⟨5, 6⟩ [] rfl⟩

/-! ## Record extraction: `_parse_symbol` and the component map

Trees produced by `SExprParser.parse` never contain `None` inside a list, so
a non-atom slot that the program uses as a `dict` key is a list, and the
assignment raises `TypeError`; the embedding, whose dict keys are strings,
surfaces that raise (`none`) where the non-atom key is produced. -/

/-- The `at` child shared by `_parse_property` / `_parse_symbol`:
`Point(float(subitem[1]), float(subitem[2]))` plus, when `len(subitem) > 3`,
`float(subitem[3])` as the new rotation. -/
def atOf (args : List SEx) : Option (Point × Option ℚ) :=
  match args with
  | a :: b :: rest =>
    match floatOf a, floatOf b with
    | some x, some y =>
      match rest with
      | [] => some (⟨x, y⟩, none)
      | c :: _ => (floatOf c).map (fun r => (⟨x, y⟩, some r))
    | _, _ => none
  | _ => none

/-- Loop of `_parse_effects` over `item[1:]`: each list child contributes
`subitem[1:]` (as a list) when it has more than two elements, else
`subitem[1]`, keyed by `subitem[0]`. -/
def effLoop : List SEx → List (String × SEx) → Option (List (String × SEx))
  | [], e => some e
  | .list [] :: _, _ => none
  | .list (k :: vs) :: rest, e =>
    match (if (k :: vs).length > 2 then some (.list vs) else vs.get? 0) with
    | none => none
    | some v =>
      match k with
      | .atom s => effLoop rest (dictSet e s v)
      | _ => none
  | .atom _ :: rest, e => effLoop rest e
  | .null :: rest, e => effLoop rest e

/-- `KiCadSchematicParser._parse_effects` applied to `item[1:]`. -/
def _parse_effects (args : List SEx) : Option (List (String × SEx)) :=
  effLoop args []

/-- Loop of `_parse_property` over `item[3:]`, updating
position / rotation / effects. -/
def propLoop : List SEx → Point × ℚ × List (String × SEx) →
    Option (Point × ℚ × List (String × SEx))
  | [], st => some st
  | .list [] :: _, _ => none
  | .list (.atom s :: args) :: rest, (p, r, e) =>
    if s = "at" then
      match atOf args with
      | none => none
      | some (pt, rot) => propLoop rest (pt, rot.getD r, e)
    else if s = "effects" then
      match _parse_effects args with
      | none => none
      | some eff => propLoop rest (p, r, eff)
    else propLoop rest (p, r, e)
  | .list (.list _ :: _) :: rest, st => propLoop rest st
  | .list (.null :: _) :: rest, st => propLoop rest st
  | .atom _ :: rest, st => propLoop rest st
  | .null :: rest, st => propLoop rest st

/-- `KiCadSchematicParser._parse_property`: shorter than three elements gives
Python `None` (`some none`); the name slot `item[1]` becomes the property-bag
key, so a non-atom name raises (`none`, see the section comment). -/
def _parse_property (item : List SEx) : Option (Option PropData) :=
  if item.length < 3 then some none
  else
    match item.getD 1 .null with
    | .atom nm =>
      match propLoop (item.drop 3) (⟨0, 0⟩, 0, []) with
      | none => none
      | some (p, r, e) => some (some ⟨nm, item.getD 2 .null, p, r, e⟩)
    | _ => none

/-- Loop of `_parse_pin` over `item[3:]`: state
(position, length, name, number). -/
def pinLoop : List SEx → Point × ℚ × SEx × SEx →
    Option (Point × ℚ × SEx × SEx)
  | [], st => some st
  | .list [] :: _, _ => none
  | .list (.atom s :: args) :: rest, (p, ln, nm, num) =>
    if s = "at" then
      match args with
      | a :: b :: _ =>
        match floatOf a, floatOf b with
        | some x, some y => pinLoop rest (⟨x, y⟩, ln, nm, num)
        | _, _ => none
      | _ => none
    else if s = "length" then
      match args with
      | a :: _ =>
        match floatOf a with
        | some l => pinLoop rest (p, l, nm, num)
        | none => none
      | [] => none
    else if s = "name" then
      match args with
      | a :: _ => pinLoop rest (p, ln, a, num)
      | [] => none
    else if s = "number" then
      match args with
      | a :: _ => pinLoop rest (p, ln, nm, a)
      | [] => none
    else pinLoop rest (p, ln, nm, num)
  | .list (.list _ :: _) :: rest, st => pinLoop rest st
  | .list (.null :: _) :: rest, st => pinLoop rest st
  | .atom _ :: rest, st => pinLoop rest st
  | .null :: rest, st => pinLoop rest st

/-- `KiCadSchematicParser._parse_pin`: shorter than three elements gives
Python `None` (`some none`); the assembled number becomes the pin-dict key in
`_parse_symbol`, so a non-atom number raises (`none`). -/
def _parse_pin (item : List SEx) : Option (Option Pin) :=
  if item.length < 3 then some none
  else
    match pinLoop (item.drop 3) (⟨0, 0⟩, 0, .atom "", .atom "") with
    | none => none
    | some (p, ln, nm, num) =>
      match num with
      | .atom s => some (some ⟨s, nm, item.getD 1 .null, p, 0, ln⟩)
      | _ => none

/-- `properties.get(k, {}).get('value', '')`. -/
def propValue (props : List (String × PropData)) (k : String) : SEx :=
  match dictGet props k with
  | some p => p.value
  | none => .atom ""

/-- Loop of `_parse_symbol` over `item[2:]`: state
(position, rotation, properties, pins); properties and pins are upserted by
name / number. -/
def symLoop : List SEx → Point × ℚ × List (String × PropData) × List (String × Pin) →
    Option (Point × ℚ × List (String × PropData) × List (String × Pin))
  | [], st => some st
  | .list [] :: _, _ => none
  | .list (.atom s :: args) :: rest, (pos, rot, props, pins) =>
    if s = "at" then
      match atOf args with
      | none => none
      | some (pt, r) => symLoop rest (pt, r.getD rot, props, pins)
    else if s = "property" then
      match _parse_property (.atom s :: args) with
      | none => none
      | some none => symLoop rest (pos, rot, props, pins)
      | some (some p) => symLoop rest (pos, rot, dictSet props p.name p, pins)
    else if s = "pin" then
      match _parse_pin (.atom s :: args) with
      | none => none
      | some none => symLoop rest (pos, rot, props, pins)
      | some (some pin) =>
        symLoop rest (pos, rot, props, dictSet pins pin.number pin)
    else symLoop rest (pos, rot, props, pins)
  | .list (.list _ :: _) :: rest, st => symLoop rest st
  | .list (.null :: _) :: rest, st => symLoop rest st
  | .atom _ :: rest, st => symLoop rest st
  | .null :: rest, st => symLoop rest st

/-- `KiCadSchematicParser._parse_symbol`: shorter than three elements or a
falsy assembled reference (`''`, `None`, `[]`) gives Python `None`
(`some none`); an atom reference builds the component; a truthy non-atom
reference makes the later `self.components[comp.reference]` assignment raise
(`none`). -/
def _parse_symbol (item : List SEx) : Option (Option Component) :=
  if item.length < 3 then some none
  else
    match symLoop (item.drop 2) (⟨0, 0⟩, 0, [], []) with
    | none => none
    | some (pos, rot, props, pins) =>
      match propValue props "Reference" with
      | .atom "" => some none
      | .null => some none
      | .list [] => some none
      | .atom s => some (some ⟨s, propValue props "Value",
          propValue props "Footprint", pos, rot, item.getD 1 .null, pins, props⟩)
      | .list (_ :: _) => none

/-- The components-map projection of `_parse_schematic` over `data[1:]`: the
`symbol` branch is the only one that reads or writes `self.components`
(`comp = self._parse_symbol(item); if comp:
self.components[comp.reference] = comp`); every other node kind leaves the
map unchanged and is skipped here. -/
def ingestSymbols : List SEx → List (String × Component) →
    Option (List (String × Component))
  | [], comps => some comps
  | it :: rest, comps =>
    match it with
    | .list (.atom s :: args) =>
      if s = "symbol" then
        match _parse_symbol (.atom s :: args) with
        | none => none
        | some none => ingestSymbols rest comps
        | some (some comp) =>
          ingestSymbols rest (dictSet comps comp.reference comp)
      else ingestSymbols rest comps
    | _ => ingestSymbols rest comps

/-- A `symbol` node that assembles the component `c`. -/
def symYields (it : SEx) (c : Component) : Prop :=
  ∃ args, it = .list (.atom "symbol" :: args) ∧
    _parse_symbol (.atom "symbol" :: args) = some (some c)

theorem dictSet_keys {β : Type} (m : List (String × β)) (k : String) (v : β) :
    ∀ a, a ∈ (dictSet m k v).map Prod.fst ↔ a = k ∨ a ∈ m.map Prod.fst := by
  induction m with
  | nil =>
    intro a
    simp [dictSet]
  | cons e rest ih =>
    intro a
    obtain ⟨k', v'⟩ := e
    by_cases hk : k' = k
    · subst hk
      simp only [dictSet, eq_self_iff_true, if_true, List.map_cons,
        List.mem_cons]
      tauto
    · simp only [dictSet, if_neg hk, List.map_cons, List.mem_cons, ih a]
      tauto

theorem dictSet_keys_nodup {β : Type} (m : List (String × β)) (k : String)
    (v : β) (h : (m.map Prod.fst).Nodup) :
    ((dictSet m k v).map Prod.fst).Nodup := by
  induction m with
  | nil => simp [dictSet]
  | cons e rest ih =>
    obtain ⟨k', v'⟩ := e
    simp only [List.map_cons, List.nodup_cons] at h
    by_cases hk : k' = k
    · subst hk
      simp only [dictSet, eq_self_iff_true, if_true, List.map_cons,
        List.nodup_cons]
      exact h
    · simp only [dictSet, if_neg hk, List.map_cons, List.nodup_cons]
      refine ⟨fun hc => ?_, ih h.2⟩
      rcases (dictSet_keys rest k v k').mp hc with rfl | hc
      · exact hk rfl
      · exact h.1 hc

theorem dictGet_dictSet_self {β : Type} (m : List (String × β)) (k : String)
    (v : β) : dictGet (dictSet m k v) k = some v := by
  induction m with
  | nil => simp [dictSet, dictGet]
  | cons e rest ih =>
    obtain ⟨k', v'⟩ := e
    by_cases hk : k' = k
    · simp [dictSet, dictGet, if_pos hk]
    · simp [dictSet, dictGet, if_neg hk, ih]

theorem ingestSymbols_append (xs ys : List SEx)
    (comps0 : List (String × Component)) :
    ingestSymbols (xs ++ ys) comps0 =
      match ingestSymbols xs comps0 with
      | none => none
      | some m => ingestSymbols ys m := by
  induction xs generalizing comps0 with
  | nil => rfl
  | cons it rest ih =>
    cases it with
    | null => simpa [ingestSymbols] using ih comps0
    | atom s => simpa [ingestSymbols] using ih comps0
    | list xs2 =>
      cases xs2 with
      | nil => simpa [ingestSymbols] using ih comps0
      | cons hd tl =>
        cases hd with
        | null => simpa [ingestSymbols] using ih comps0
        | list l2 => simpa [ingestSymbols] using ih comps0
        | atom s =>
          by_cases hs : s = "symbol"
          · subst hs
            simp only [List.cons_append, ingestSymbols, if_pos rfl]
            cases _parse_symbol (.atom "symbol" :: tl) with
            | none => rfl
            | some oc =>
              cases oc with
              | none => exact ih comps0
              | some comp => exact ih (dictSet comps0 comp.reference comp)
          · simpa [ingestSymbols, hs] using ih comps0

/-- **C9** (confirmed).  The component map is last-write-wins and never holds
two entries with the same reference: ingesting any node list keeps the
reference keys duplicate-free; appending one more `symbol` node that
assembles component `c` upserts `c` under `c.reference` without any error;
and looking the reference up afterwards yields exactly `c`, silently
replacing any earlier component of the same reference. -/
theorem component_last_write_wins :
    (∀ (items : List SEx) (comps0 comps : List (String × Component)),
      ingestSymbols items comps0 = some comps →
      (comps0.map Prod.fst).Nodup → (comps.map Prod.fst).Nodup) ∧
    (∀ (items : List SEx) (comps0 : List (String × Component)) (sym : SEx)
      (c : Component), symYields sym c →
      ingestSymbols (items ++ [sym]) comps0 =
        (ingestSymbols items comps0).map (fun m => dictSet m c.reference c)) ∧
    (∀ (m : List (String × Component)) (c : Component),
      dictGet (dictSet m c.reference c) c.reference = some c) := by
  refine ⟨?_, ?_, fun m c => dictGet_dictSet_self m c.reference c⟩
  · intro items
    induction items with
    | nil =>
      intro comps0 comps h h0
      simp only [ingestSymbols, Option.some.injEq] at h
      rw [← h]
      exact h0
    | cons it rest ih =>
      intro comps0 comps h h0
      match it with
      | .null => exact ih comps0 comps h h0
      | .atom s => exact ih comps0 comps h h0
      | .list [] => exact ih comps0 comps h h0
      | .list (.null :: tl) => exact ih comps0 comps h h0
      | .list (.list l2 :: tl) => exact ih comps0 comps h h0
      | .list (.atom s :: tl) =>
        by_cases hs : s = "symbol"
        · subst hs
          simp only [ingestSymbols, if_pos rfl] at h
          cases hp : _parse_symbol (.atom "symbol" :: tl) with
          | none => rw [hp] at h; exact absurd h (by simp)
          | some oc =>
            rw [hp] at h
            cases oc with
            | none => exact ih comps0 comps h h0
            | some comp =>
              exact ih (dictSet comps0 comp.reference comp) comps h
                (dictSet_keys_nodup comps0 comp.reference comp h0)
        · simp only [ingestSymbols, if_neg hs] at h
          exact ih comps0 comps h h0
  · intro items comps0 sym c hy
    obtain ⟨args, rfl, hps⟩ := hy
    rw [ingestSymbols_append]
    cases hi : ingestSymbols items comps0 with
    | none => rfl
    | some m =>
      simp only [Option.map_some']
      simp [ingestSymbols, hps]

/-- A `symbol` node `Lib:R`, reference `U1`. -/
def c9Sym1 : SEx :=
  .list [.atom "symbol", .atom "Lib:R",
    .list [.atom "property", .atom "Reference", .atom "U1"]]

/-- A second `symbol` node `Lib:C` with the same reference `U1`. -/
def c9Sym2 : SEx :=
  .list [.atom "symbol", .atom "Lib:C",
    .list [.atom "property", .atom "Reference", .atom "U1"]]

/-- The component assembled from `c9Sym2`. -/
def c9Comp2 : Component :=
  ⟨"U1", .atom "", .atom "", ⟨0, 0⟩, 0, .atom "Lib:C", [],
    [("Reference", ⟨"Reference", .atom "U1", ⟨0, 0⟩, 0, []⟩)]⟩

/-- Witness for C9 at two concrete same-reference symbol nodes: the second
component replaces the first with no error. -/
theorem component_last_write_wins_witness :
    ingestSymbols [c9Sym1, c9Sym2] [] =
      some (dictSet (Option.getD (ingestSymbols [c9Sym1] []) []) "U1" c9Comp2) ∧
    dictGet (dictSet [] c9Comp2.reference c9Comp2) c9Comp2.reference =
      some c9Comp2 := by
  constructor
  · have hy : symYields c9Sym2 c9Comp2 := ⟨_, rfl, rfl⟩
    have h := component_last_write_wins.2.1 [c9Sym1] [] c9Sym2 c9Comp2 hy
    rw [show ([c9Sym1] ++ [c9Sym2] : List SEx) = [c9Sym1, c9Sym2] from rfl] at h
    rw [h]
    rfl
  · exact component_last_write_wins.2.2 [] c9Comp2

end SchematicIngest
